import Mathlib

/-!
Verification of the expense-tracker statement-parsing and categorization
pipeline (`expense_tracker` Python package).  Python modules are shallowly
embedded: pure functions become Lean functions, `Decimal` values become
exact rationals (wrapped to account for the special values `Infinity` and
`NaN`), fallible code returns `Option`, and the in-place list mutation of
`categorize_all` becomes a `List.map`.
-/

set_option maxHeartbeats 1000000

namespace ExpenseTracker

/-! ## Data model (`expense_tracker/models.py`) -/

/-- `Category` enumeration from `models.py`. -/
inductive Category where
  | GROCERIES
  | RESTAURANTS
  | TRANSPORT
  | TRANSFERS
  | COMMUNICATION
  | ENTERTAINMENT
  | HEALTH
  | CLOTHING
  | CASHBACK
  | CASH
  | OTHER
deriving DecidableEq, Repr

/-- A Python `decimal.Decimal` value: a finite decimal stored, as in
CPython, as a signed integer coefficient and a base-10 exponent (value
`num * 10 ^ exp`), a signed infinity, or a NaN.  Numeric equality of
decimals is `pyDecEqB` below, not constructor equality. -/
inductive PyDec where
  | fin (num : Int) (exp : Int)
  | inf (neg : Bool)
  | nan
deriving DecidableEq, Repr

/-- `10 ^ k` as an integer. -/
def pow10 (k : Nat) : Int := ((10 ^ k : Nat) : Int)

/-- The exact rational value of a finite decimal (specials map to 0; they
are excluded by hypothesis wherever this view is used). -/
def pyDecToRat : PyDec → ℚ
  | PyDec.fin n e => if 0 ≤ e then mkRat (n * pow10 e.toNat) 1 else mkRat n (10 ^ (-e).toNat)
  | PyDec.inf _ => 0
  | PyDec.nan => 0

/-- Python `Decimal` numeric equality (`==`): finite decimals are
compared after aligning exponents; infinities compare by sign; `NaN`
compares unequal to everything. -/
def pyDecEqB : PyDec → PyDec → Bool
  | PyDec.fin n1 e1, PyDec.fin n2 e2 =>
    let m := min e1 e2
    n1 * pow10 (e1 - m).toNat == n2 * pow10 (e2 - m).toNat
  | PyDec.inf s1, PyDec.inf s2 => s1 == s2
  | _, _ => false

/-- A calendar date-time as produced by `datetime.strptime`. -/
structure DateTime where
  year : Nat
  month : Nat
  day : Nat
  hour : Nat := 0
  minute : Nat := 0
  second : Nat := 0
deriving DecidableEq, Repr

/-- `Transaction` model (`models.py`).  `amount` is the signed decimal
amount; optional fields are `Option`; `category` starts unset (`none`). -/
structure Transaction where
  date : DateTime
  posting_date : Option DateTime := none
  amount : PyDec
  amount_original : Option PyDec := none
  currency : String := "RUB"
  description : String
  category : Option Category := none
  card_number : Option String := none
  bank : String := "T-Bank"
deriving DecidableEq, Repr

/-! ## Category rule engine (`expense_tracker/categorizer.py`) -/

/-- `CategoryRule` from `categorizer.py`: a target category together with
the boolean matching behaviour of its compiled case-insensitive combined
regex (`rule.matches(description) = bool(rule.regex.search(description))`).
The regex search itself is abstracted as the boolean function
`matchesDesc` (source name: `matches`, a reserved word in Lean). -/
structure CategoryRule where
  category : Category
  matchesDesc : String → Bool

/-- `Categorizer.categorize`: evaluate the rules in list order and return
the category of the first rule whose pattern matches the description;
`Category.OTHER` if none matches. -/
def categorize (rules : List CategoryRule) (t : Transaction) : Category :=
  match rules with
  | [] => Category.OTHER
  | r :: rs => if r.matchesDesc t.description then r.category else categorize rs t

/-- `Categorizer.categorize_all`: fill in the category of every transaction
whose category is not yet set; already-categorized transactions are left
untouched.  The Python method mutates the list in place and returns it;
the embedding returns the mapped list. -/
def categorizeAll (rules : List CategoryRule) (ts : List Transaction) : List Transaction :=
  ts.map fun t =>
    if t.category = none then { t with category := some (categorize rules t) } else t

/-! ### Basic lemmas about the rule engine -/

theorem categorize_nil (t : Transaction) : categorize [] t = Category.OTHER := rfl

theorem categorize_cons (r : CategoryRule) (rs : List CategoryRule) (t : Transaction) :
    categorize (r :: rs) t =
      if r.matchesDesc t.description then r.category else categorize rs t := rfl

/-- If no rule matches, `categorize` returns `OTHER`. -/
theorem categorize_eq_other_of_no_match (rules : List CategoryRule) (t : Transaction)
    (h : ∀ r ∈ rules, r.matchesDesc t.description = false) :
    categorize rules t = Category.OTHER := by
  induction rules with
  | nil => rfl
  | cons r rs ih =>
    rw [categorize_cons, h r (List.mem_cons_self r rs)]
    simp only [Bool.false_eq_true, if_false]
    exact ih fun r' hr' => h r' (List.mem_cons_of_mem r hr')

/-- `categorize` returns the category of the rule at the first matching
index. -/
theorem categorize_eq_of_first_match (rules : List CategoryRule) (t : Transaction)
    (i : Nat) (hi : i < rules.length)
    (hmatch : (rules.get ⟨i, hi⟩).matchesDesc t.description = true)
    (hbefore : ∀ j (hj : j < i),
      (rules.get ⟨j, Nat.lt_trans hj hi⟩).matchesDesc t.description = false) :
    categorize rules t = (rules.get ⟨i, hi⟩).category := by
  induction rules generalizing i with
  | nil => exact absurd hi (Nat.not_lt_zero i)
  | cons r rs ih =>
    cases i with
    | zero =>
      simp only [List.get] at hmatch ⊢
      rw [categorize_cons, hmatch]
      simp
    | succ i' =>
      have h0 : r.matchesDesc t.description = false := hbefore 0 (Nat.succ_pos i')
      rw [categorize_cons, h0]
      simp only [Bool.false_eq_true, if_false]
      exact ih i' (Nat.lt_of_succ_lt_succ hi) hmatch
        (fun j hj => hbefore (j + 1) (Nat.succ_lt_succ hj))

/-! ## Category migration (`Storage.migrate_categories`, `storage.py`)

The SQL pass selects exactly the rows whose stored category is
`TRANSFERS` or `OTHER`, re-runs the categorizer on a category-cleared
copy of each selected row, and rewrites the category column only when
`should_update` holds; all other rows are untouched.  The embedding
expresses the table as a list of transactions and the pass as a map. -/

/-- The per-row body of `Storage.migrate_categories`: rows whose category
is not `TRANSFERS`/`OTHER` are not selected by the SQL query and stay
unchanged; selected rows are re-categorized on a category-cleared copy
and updated only under the source's `should_update` conditions. -/
def migrateStep (rules : List CategoryRule) (t : Transaction) : Transaction :=
  match t.category with
  | some Category.TRANSFERS =>
      let newCat := categorize rules { t with category := none }
      if newCat ≠ Category.TRANSFERS ∧ newCat ≠ Category.OTHER then
        { t with category := some newCat }
      else t
  | some Category.OTHER =>
      let newCat := categorize rules { t with category := none }
      if newCat ≠ Category.OTHER then { t with category := some newCat } else t
  | _ => t

/-- `Storage.migrate_categories` over a list-modelled transaction table. -/
def migrateCategories (rules : List CategoryRule) (db : List Transaction) :
    List Transaction :=
  db.map (migrateStep rules)

/-- Specificity ranking used to express "strictly more specific": `OTHER`
is the catch-all (least specific), `TRANSFERS` is more specific than the
catch-all, and every other category is a specific category. -/
def specificityRank : Category → Nat
  | Category.OTHER => 0
  | Category.TRANSFERS => 1
  | _ => 2

theorem specificityRank_eq_two (c : Category)
    (h1 : c ≠ Category.TRANSFERS) (h2 : c ≠ Category.OTHER) :
    specificityRank c = 2 := by
  cases c <;> first
    | rfl
    | exact absurd rfl h1
    | exact absurd rfl h2

theorem specificityRank_pos (c : Category) (h : c ≠ Category.OTHER) :
    0 < specificityRank c := by
  cases c <;> first
    | exact absurd rfl h
    | exact Nat.succ_pos _

/-- Behaviour of one migration step. -/
theorem migrateStep_spec (rules : List CategoryRule) (t : Transaction) :
    ((t.category ≠ some Category.TRANSFERS ∧ t.category ≠ some Category.OTHER) →
      migrateStep rules t = t) ∧
    (migrateStep rules t ≠ t →
      (t.category = some Category.TRANSFERS ∨ t.category = some Category.OTHER) ∧
      migrateStep rules t =
        { t with category := some (categorize rules { t with category := none }) } ∧
      (∀ c, t.category = some c →
        specificityRank c <
          specificityRank (categorize rules { t with category := none })) ∧
      categorize rules { t with category := none } ≠ Category.OTHER ∧
      (t.category = some Category.TRANSFERS →
        categorize rules { t with category := none } ≠ Category.TRANSFERS)) := by
  rcases hcat : t.category with _ | c
  · have hms : migrateStep rules t = t := by simp [migrateStep, hcat]
    exact ⟨fun _ => hms, fun hne => absurd hms hne⟩
  · cases c
    case TRANSFERS =>
      by_cases hg : categorize rules { t with category := none } ≠ Category.TRANSFERS ∧
          categorize rules { t with category := none } ≠ Category.OTHER
      · have hms : migrateStep rules t =
            { t with category := some (categorize rules { t with category := none }) } := by
          simp only [migrateStep, hcat]
          rw [if_pos hg]
        refine ⟨fun h => absurd rfl h.1,
          fun _ => ⟨Or.inl rfl, hms, ?_, hg.2, fun _ => hg.1⟩⟩
        intro c hc
        injection hc with hc; subst hc
        rw [specificityRank_eq_two _ hg.1 hg.2]
        exact Nat.lt_succ_self 1
      · have hms : migrateStep rules t = t := by
          simp only [migrateStep, hcat]
          rw [if_neg hg]
        exact ⟨fun h => absurd rfl h.1, fun hne => absurd hms hne⟩
    case OTHER =>
      by_cases hg : categorize rules { t with category := none } ≠ Category.OTHER
      · have hms : migrateStep rules t =
            { t with category := some (categorize rules { t with category := none }) } := by
          simp only [migrateStep, hcat]
          rw [if_pos hg]
        refine ⟨fun h => absurd rfl h.2,
          fun _ => ⟨Or.inr rfl, hms, ?_, hg, ?_⟩⟩
        · intro c hc
          injection hc with hc; subst hc
          exact specificityRank_pos _ hg
        · intro h
          exact absurd h (by decide)
      · have hms : migrateStep rules t = t := by
          simp only [migrateStep, hcat]
          rw [if_neg hg]
        exact ⟨fun h => absurd rfl h.2, fun hne => absurd hms hne⟩
    all_goals
      have hms : migrateStep rules t = t := by simp [migrateStep, hcat]
      exact ⟨fun _ => hms, fun hne => absurd hms hne⟩

/-! ## Demonstration inputs used by the witness theorems -/

def demoRules : List CategoryRule :=
  [{ category := Category.GROCERIES, matchesDesc := fun d => d = "LENTA" },
   { category := Category.TRANSFERS, matchesDesc := fun _ => true }]

def demoDate : DateTime := { year := 2026, month := 1, day := 28, hour := 18, minute := 30 }

def demoTx : Transaction :=
  { date := demoDate, amount := PyDec.fin (-500) 0, description := "перевод" }

def demoTxOther : Transaction := { demoTx with category := some Category.OTHER }

/-! ## Claim theorems: the rule engine -/

/-- C1: `Categorizer.categorize` evaluates the rules in list order and
returns the category of the first rule whose pattern matches the
description; if no rule matches it returns `Category.OTHER`; and whenever
two rules both match, the result is the category of the earliest matching
rule (which is no later than the earlier of the two). -/
theorem categorize_first_match_wins (rules : List CategoryRule) (t : Transaction) :
    (∀ i (hi : i < rules.length),
      (rules.get ⟨i, hi⟩).matchesDesc t.description = true →
      (∀ j (hj : j < i),
        (rules.get ⟨j, Nat.lt_trans hj hi⟩).matchesDesc t.description = false) →
      categorize rules t = (rules.get ⟨i, hi⟩).category) ∧
    ((∀ r ∈ rules, r.matchesDesc t.description = false) →
      categorize rules t = Category.OTHER) ∧
    (∀ i j (hij : i < j) (hj : j < rules.length),
      (rules.get ⟨i, Nat.lt_trans hij hj⟩).matchesDesc t.description = true →
      (rules.get ⟨j, hj⟩).matchesDesc t.description = true →
      ∃ k, ∃ hk : k < rules.length, k ≤ i ∧
        (rules.get ⟨k, hk⟩).matchesDesc t.description = true ∧
        (∀ m (hm : m < k),
          (rules.get ⟨m, Nat.lt_trans hm hk⟩).matchesDesc t.description = false) ∧
        categorize rules t = (rules.get ⟨k, hk⟩).category) := by
  refine ⟨fun i hi hm hb => categorize_eq_of_first_match rules t i hi hm hb,
    categorize_eq_other_of_no_match rules t, ?_⟩
  intro i j hij hj hmi hmj
  induction rules generalizing i j with
  | nil => exact absurd hj (Nat.not_lt_zero j)
  | cons r rs ih =>
    by_cases hr : r.matchesDesc t.description = true
    · refine ⟨0, Nat.succ_pos _, Nat.zero_le _, hr, fun m hm => absurd hm (Nat.not_lt_zero m), ?_⟩
      rw [categorize_cons, hr]
      simp [List.get]
    · have hr' : r.matchesDesc t.description = false := by
        cases heq : r.matchesDesc t.description
        · rfl
        · exact absurd heq hr
      cases i with
      | zero => exact absurd hmi hr
      | succ i' =>
        cases j with
        | zero => exact absurd hij (Nat.not_lt_zero _)
        | succ j' =>
          obtain ⟨k, hk, hki, hkm, hkb, hkc⟩ :=
            ih i' j' (Nat.lt_of_succ_lt_succ hij) (Nat.lt_of_succ_lt_succ hj) hmi hmj
          refine ⟨k + 1, Nat.succ_lt_succ hk, Nat.succ_le_succ hki, hkm, ?_, ?_⟩
          · intro m hm
            cases m with
            | zero => exact hr'
            | succ m' => exact hkb m' (Nat.lt_of_succ_lt_succ hm)
          · rw [categorize_cons, hr', if_neg (by simp)]
            exact hkc

/-- Witness for C1 at concrete rules and a concrete transaction: the second
rule is the first one matching the description, so its category is
returned. -/
theorem categorize_first_match_wins_witness :
    categorize demoRules demoTx = Category.TRANSFERS := by
  have h := (categorize_first_match_wins demoRules demoTx).1 1 (by decide) (by decide)
    (fun j hj => by
      have hj0 : j = 0 := by omega
      subst hj0
      exact (by decide :
        (demoRules.get ⟨0, Nat.succ_pos 1⟩).matchesDesc demoTx.description = false))
  exact h.trans (by decide)

/-- C2: `categorize_all` is idempotent — applying it twice yields exactly
the same transaction list (hence the same category assignments) as
applying it once, because the second pass skips every transaction whose
category is already set. -/
theorem categorizeAll_idempotent (rules : List CategoryRule) (ts : List Transaction) :
    categorizeAll rules (categorizeAll rules ts) = categorizeAll rules ts := by
  unfold categorizeAll
  rw [List.map_map]
  refine List.map_congr_left fun t _ => ?_
  by_cases h : t.category = none
  · simp [Function.comp, h]
  · simp [Function.comp, h]

/-- C10: `categorize_all` is a frame-preserving pass — the result has the
same length and order, and each output transaction agrees with its input
on every field except possibly `category`, which is filled in (with the
rule-engine result) exactly when it was previously `none`. -/
theorem categorizeAll_frame (rules : List CategoryRule) (ts : List Transaction) :
    (categorizeAll rules ts).length = ts.length ∧
    ∀ i (hi : i < ts.length) (hi2 : i < (categorizeAll rules ts).length),
      (categorizeAll rules ts)[i].date = ts[i].date ∧
      (categorizeAll rules ts)[i].posting_date = ts[i].posting_date ∧
      (categorizeAll rules ts)[i].amount = ts[i].amount ∧
      (categorizeAll rules ts)[i].amount_original = ts[i].amount_original ∧
      (categorizeAll rules ts)[i].currency = ts[i].currency ∧
      (categorizeAll rules ts)[i].description = ts[i].description ∧
      (categorizeAll rules ts)[i].card_number = ts[i].card_number ∧
      (categorizeAll rules ts)[i].bank = ts[i].bank ∧
      (ts[i].category = none →
        (categorizeAll rules ts)[i].category = some (categorize rules ts[i])) ∧
      (ts[i].category ≠ none → (categorizeAll rules ts)[i] = ts[i]) := by
  refine ⟨by simp [categorizeAll], ?_⟩
  intro i hi hi2
  by_cases h : ts[i].category = none <;>
    simp [categorizeAll, List.getElem_map, h]

/-- Witness for C10 at a concrete rule list and transaction list. -/
theorem categorizeAll_frame_witness :
    ((categorizeAll demoRules [demoTx]).get ⟨0, by decide⟩).description = "перевод" := by
  have h := (categorizeAll_frame demoRules [demoTx]).2 0 (by decide) (by decide)
  exact h.2.2.2.2.2.1

/-- C5: the migration pass changes only transactions currently categorized
as `TRANSFERS` or `OTHER`; when it changes one, the new category is the
rule-engine result on a category-cleared copy of the transaction and is
strictly more specific than the old one (never `OTHER`, and never
`TRANSFERS` when the old category was `TRANSFERS`); transactions holding a
specific category are never touched, so none is ever downgraded to
`TRANSFERS`/`OTHER`. -/
theorem migrateCategories_spec (rules : List CategoryRule) (db : List Transaction) :
    (migrateCategories rules db).length = db.length ∧
    ∀ i (hi : i < db.length) (hi2 : i < (migrateCategories rules db).length),
      ((db[i].category ≠ some Category.TRANSFERS ∧
        db[i].category ≠ some Category.OTHER) →
        (migrateCategories rules db)[i] = db[i]) ∧
      ((migrateCategories rules db)[i] ≠ db[i] →
        (db[i].category = some Category.TRANSFERS ∨
          db[i].category = some Category.OTHER) ∧
        (migrateCategories rules db)[i] =
          { db[i] with
            category := some (categorize rules { db[i] with category := none }) } ∧
        (∀ c, db[i].category = some c →
          specificityRank c <
            specificityRank (categorize rules { db[i] with category := none })) ∧
        categorize rules { db[i] with category := none } ≠ Category.OTHER ∧
        (db[i].category = some Category.TRANSFERS →
          categorize rules { db[i] with category := none } ≠ Category.TRANSFERS)) := by
  refine ⟨by simp [migrateCategories], ?_⟩
  intro i hi hi2
  have hstep := migrateStep_spec rules db[i]
  have hget : (migrateCategories rules db)[i] = migrateStep rules db[i] := by
    simp [migrateCategories, List.getElem_map]
  rw [hget]
  exact hstep

/-- Witness for C5 at a concrete database: an `OTHER`-categorized
transaction whose description now matches a rule is upgraded, and the
specificity rank strictly increases. -/
theorem migrateCategories_spec_witness :
    specificityRank Category.OTHER <
      specificityRank (categorize demoRules { demoTxOther with category := none }) := by
  have h := (migrateCategories_spec demoRules [demoTxOther]).2 0 (by decide) (by decide)
  have hne : (migrateCategories demoRules [demoTxOther]).get ⟨0, by decide⟩ ≠
      [demoTxOther].get ⟨0, by decide⟩ := by decide
  exact ((h.2 hne).2.2.1) Category.OTHER rfl

/-! ## Character classes and Python string primitives

Python's `str`-mode regex classes `\d`/`\s` are Unicode classes; the
embedding models `\d` as the ASCII digits (the only digits occurring in
bank statements) and `\s` as the standard Python whitespace code points,
including the non-breaking space U+00A0 and the other Unicode space
separators. -/

/-- ASCII digit (`\d` on the relevant inputs). -/
def isDigitChar (c : Char) : Bool := 48 ≤ c.toNat && c.toNat ≤ 57

/-- Python whitespace (`\s`, `str.strip`, `str.split`): ASCII whitespace,
the C1 separators, NEL, NBSP and the Unicode space separators. -/
def isPySpace (c : Char) : Bool :=
  let n := c.toNat
  n = 32 || n = 9 || n = 10 || n = 13 || n = 11 || n = 12 ||
  (28 ≤ n && n ≤ 31) || n = 0x85 || n = 0xa0 || n = 0x1680 ||
  (0x2000 ≤ n && n ≤ 0x200a) || n = 0x2028 || n = 0x2029 ||
  n = 0x202f || n = 0x205f || n = 0x3000

/-- ASCII letter. -/
def isAsciiLetter (c : Char) : Bool :=
  let n := c.toNat
  (65 ≤ n && n ≤ 90) || (97 ≤ n && n ≤ 122)

/-- Lower-case an ASCII letter (used for the case-insensitive words of the
`Decimal` grammar). -/
def asciiLower (c : Char) : Char :=
  if 65 ≤ c.toNat ∧ c.toNat ≤ 90 then Char.ofNat (c.toNat + 32) else c

/-- Numeric value of an ASCII digit. -/
def digitVal (c : Char) : Nat := c.toNat - 48

/-- `str.strip()`: remove leading and trailing whitespace. -/
def pyStrip (cs : List Char) : List Char :=
  ((cs.dropWhile isPySpace).reverse.dropWhile isPySpace).reverse

/-- `str.replace(x, "")` for a single-character pattern. -/
def removeChar (x : Char) (cs : List Char) : List Char :=
  cs.filter fun c => c ≠ x

/-- `str.replace(x, y)` for single-character pattern and replacement. -/
def mapChar (x y : Char) (cs : List Char) : List Char :=
  cs.map fun c => if c = x then y else c

theorem length_dropWhile_le (p : Char → Bool) (l : List Char) :
    (l.dropWhile p).length ≤ l.length := by
  induction l with
  | nil => simp
  | cons a l ih =>
    cases hp : p a
    · simp [List.dropWhile, hp]
    · simp only [List.dropWhile, hp, List.length_cons]
      omega

/-- `str.split()` worker: accumulate the current word (reversed) and cut
at whitespace, dropping empty pieces. -/
def pySplitWsAux (cur : List Char) : List Char → List (List Char)
  | [] => if cur.isEmpty then [] else [cur.reverse]
  | c :: cs =>
    if isPySpace c then
      if cur.isEmpty then pySplitWsAux [] cs
      else cur.reverse :: pySplitWsAux [] cs
    else pySplitWsAux (c :: cur) cs

/-- `str.split()`: split on whitespace runs, dropping empty pieces. -/
def pySplitWs (cs : List Char) : List (List Char) :=
  pySplitWsAux [] cs

/-- `" ".join(parts)` for a list of character lists. -/
def joinSpace : List (List Char) → List Char
  | [] => []
  | [p] => p
  | p :: ps => p ++ ' ' :: joinSpace ps

/-- The shared `_clean_description`: `" ".join(description.split())`
followed by `strip()` (collapse all whitespace runs to single spaces). -/
def cleanDescription (cs : List Char) : List Char :=
  pyStrip (joinSpace (pySplitWs cs))

/-- Substring containment (`needle in haystack` on Python strings). -/
def containsSub (needle : List Char) : List Char → Bool
  | [] => needle.isEmpty
  | c :: cs => needle.isPrefixOf (c :: cs) || containsSub needle cs

/-! ## `decimal.Decimal(str)` (Python standard library)

Model of the decimal numeric-string grammar: after removing leading and
trailing whitespace, and underscores throughout, the string must be
`sign? (digits [. digits?] | . digits) ([eE] sign? digits)?`, or one of
the special words `inf`/`infinity`/`nan`/`snan` (case-insensitively,
NaNs with an optional digit payload).  The value of a finite decimal is
an exact rational. -/

/-- Value of a digit string read left to right. -/
def digitsToNat (ds : List Char) : Nat :=
  ds.foldl (fun acc c => 10 * acc + digitVal c) 0

/-- Assemble a finite decimal from sign, integer digits, fractional
digits, and exponent: coefficient `± digits`, exponent `exp - |frac|`
(exactly the CPython parse of a numeric string). -/
def pyDecOfParts (neg : Bool) (ip fp : List Char) (exp : Int) : PyDec :=
  let m : Nat := digitsToNat (ip ++ fp)
  let sm : Int := if neg then -(m : Int) else (m : Int)
  PyDec.fin sm (exp - fp.length)

/-- Digits of an exponent after its optional sign, consuming the whole
remainder. -/
def parseExpBody (neg : Bool) (body : List Char) : Option Int :=
  let ds := body.takeWhile isDigitChar
  let rest := body.dropWhile isDigitChar
  if ds.isEmpty || !rest.isEmpty then none
  else some (if neg then -(digitsToNat ds : Int) else (digitsToNat ds : Int))

/-- Exponent part: `sign? digits`, consuming the whole remainder. -/
def parseExp (cs : List Char) : Option Int :=
  if cs.head? = some '+' then parseExpBody false cs.tail
  else if cs.head? = some '-' then parseExpBody true cs.tail
  else parseExpBody false cs

/-- The special words of the decimal grammar (checked after the sign):
`inf`, `infinity`, `nan`/`snan` with optional digit payload. -/
def isDecimalSpecial (cs : List Char) : Bool :=
  let low := cs.map asciiLower
  low = ['i', 'n', 'f'] || low = ['i', 'n', 'f', 'i', 'n', 'i', 't', 'y'] ||
  (low.take 3 = ['n', 'a', 'n'] && (low.drop 3).all isDigitChar) ||
  (low.take 4 = ['s', 'n', 'a', 'n'] && (low.drop 4).all isDigitChar)

/-- Finish the numeric branch: optional exponent, then end of input. -/
def pyDecFinish (neg : Bool) (ip fp : List Char) (r : List Char) : Option PyDec :=
  if r.isEmpty then some (pyDecOfParts neg ip fp 0)
  else if r.head? = some 'e' ∨ r.head? = some 'E' then
    (parseExp r.tail).map fun e => pyDecOfParts neg ip fp e
  else none

/-- Body of the decimal grammar after the optional sign: a special word
or a numeric coefficient with optional exponent. -/
def pyDecimalBody (neg : Bool) (rest : List Char) : Option PyDec :=
  let low := rest.map asciiLower
  if low = ['i', 'n', 'f'] ∨ low = ['i', 'n', 'f', 'i', 'n', 'i', 't', 'y'] then
    some (PyDec.inf neg)
  else if (low.take 3 = ['n', 'a', 'n'] ∧ (low.drop 3).all isDigitChar) ∨
      (low.take 4 = ['s', 'n', 'a', 'n'] ∧ (low.drop 4).all isDigitChar) then
    some PyDec.nan
  else
    let ip := rest.takeWhile isDigitChar
    let r1 := rest.dropWhile isDigitChar
    if r1.head? = some '.' then
      let fp := r1.tail.takeWhile isDigitChar
      let r2 := r1.tail.dropWhile isDigitChar
      if ip.isEmpty ∧ fp.isEmpty then none else pyDecFinish neg ip fp r2
    else if ip.isEmpty then none
    else pyDecFinish neg ip [] r1

/-- Core of the decimal grammar, after whitespace/underscore removal:
optional sign, then the body. -/
def pyDecimalCore (cs : List Char) : Option PyDec :=
  if cs.head? = some '+' then pyDecimalBody false cs.tail
  else if cs.head? = some '-' then pyDecimalBody true cs.tail
  else pyDecimalBody false cs

/-- `decimal.Decimal(s)` as a partial function: `none` models the
`InvalidOperation` raised on a malformed numeric string. -/
def pyDecimal (cs : List Char) : Option PyDec :=
  pyDecimalCore ((pyStrip cs).filter fun c => c ≠ '_')

/-! ## Vendor amount normalization (`_parse_amount`) -/

/-- `TBankParser._parse_amount` (tbank.py): empty string is no value;
otherwise strip, drop ASCII spaces, turn `,` into `.`, and parse as a
`Decimal`, with `InvalidOperation` mapped to no value. -/
def tbParseAmountL (cs : List Char) : Option PyDec :=
  if cs.isEmpty then none
  else pyDecimal (mapChar ',' '.' (removeChar ' ' (pyStrip cs)))

def tbParseAmount (s : String) : Option PyDec := tbParseAmountL s.data

/-- `YandexBankParser._parse_amount` (yandex.py): additionally turns the
en-dash `–` into `-` before the comma replacement. -/
def yandexParseAmountL (cs : List Char) : Option PyDec :=
  if cs.isEmpty then none
  else pyDecimal (mapChar ',' '.' (mapChar '–' '-' (removeChar ' ' (pyStrip cs))))

def yandexParseAmount (s : String) : Option PyDec := yandexParseAmountL s.data

/-- The `re.sub(r"\s*RU[RB]\s*$", "", ...)` step of
`AlfaBankParser._parse_amount`: remove a trailing `RUR`/`RUB`
(case-insensitively) together with surrounding trailing whitespace. -/
def alfaStripRUR (cs : List Char) : List Char :=
  let rev := cs.reverse
  let body := rev.dropWhile isPySpace
  let low3 := (body.take 3).map asciiLower
  if low3 = ['r', 'u', 'r'] ∨ low3 = ['b', 'u', 'r'] then
    (((body.drop 3).dropWhile isPySpace)).reverse
  else cs

/-- `AlfaBankParser._parse_amount` (alfabank.py). -/
def alfaParseAmountL (cs : List Char) : Option PyDec :=
  if cs.isEmpty then none
  else pyDecimal (mapChar ',' '.' (removeChar ' ' (alfaStripRUR (pyStrip cs))))

def alfaParseAmount (s : String) : Option PyDec := alfaParseAmountL s.data

/-- Tail of the Ozon amount pattern after the `[\d\s]+` run: literal `.`,
two digits, optional whitespace, then the `₽` sign.  Returns the full
second capture group on success. -/
def ozonAmtTail (g1 g2pre rest : List Char) : Option (List Char × List Char) :=
  match rest with
  | '.' :: d1 :: d2 :: rest2 =>
    if isDigitChar d1 && isDigitChar d2 then
      if (rest2.dropWhile isPySpace).head? = some '₽' then
        some (g1, g2pre ++ '.' :: [d1, d2])
      else none
    else none
  | _ => none

/-- After the optional sign: a maximal whitespace run (`\s*`), then a
maximal (nonempty) `[\d\s]` run ending exactly at the literal dot; when
the maximal-whitespace attempt leaves the class run empty, the engine
backtracks one whitespace character into the class run. -/
def ozonAmtCore (g1 u : List Char) : Option (List Char × List Char) :=
  let w := (u.takeWhile isPySpace).length
  let u1 := u.drop w
  let r := (u1.takeWhile fun c => isDigitChar c || isPySpace c).length
  if 1 ≤ r then ozonAmtTail g1 (u1.take r) (u1.drop r)
  else if 1 ≤ w then ozonAmtTail g1 ((u.drop (w - 1)).take 1) u1
  else none

/-- Match of `([+\-]?)\s*([\d\s]+\.\d{2})\s*₽` at a fixed position,
following the backtracking priorities of the Python engine (the optional
sign is taken greedily; if matching then fails, the sign-less attempt
fails immediately because a sign character is in neither `\s` nor
`[\d\s]`). -/
def ozonAmtMatchAt (t : List Char) : Option (List Char × List Char) :=
  if t.head? = some '+' ∨ t.head? = some '-' then ozonAmtCore (t.take 1) t.tail
  else ozonAmtCore [] t

/-- `re.search` of the Ozon amount pattern: leftmost match. -/
def ozonAmtSearch : List Char → Option (List Char × List Char)
  | [] => none
  | c :: rest =>
    match ozonAmtMatchAt (c :: rest) with
    | some g => some g
    | none => ozonAmtSearch rest

/-- `-abs(result)` on a decimal. -/
def pyDecNegAbs : PyDec → PyDec
  | PyDec.fin n e => PyDec.fin (if n < 0 then n else -n) e
  | PyDec.inf _ => PyDec.inf true
  | PyDec.nan => PyDec.nan

/-- `OzonBankParser._parse_amount` (ozon.py): search the signed-amount
pattern, drop ASCII spaces from the captured value (Ozon uses a dot as
decimal separator), parse as `Decimal`, and negate when the captured sign
is `-`. -/
def ozonParseAmountL (cs : List Char) : Option PyDec :=
  if cs.isEmpty then none
  else
    match ozonAmtSearch cs with
    | none => none
    | some (sign, value) =>
      match pyDecimal (removeChar ' ' value) with
      | none => none
      | some d => some (if sign = ['-'] then pyDecNegAbs d else d)

def ozonParseAmount (s : String) : Option PyDec := ozonParseAmountL s.data

/-! ## Lemmas about the string primitives -/

theorem ne_of_pred (p : Char → Bool) {c x : Char} (hc : p c = true) (hx : p x = false) :
    c ≠ x := by
  intro h
  subst h
  rw [hc] at hx
  cases hx

theorem not_pySpace_of_digit {c : Char} (h : isDigitChar c = true) :
    isPySpace c = false := by
  simp only [isDigitChar, Bool.and_eq_true, decide_eq_true_eq] at h
  cases hps : isPySpace c
  · rfl
  · exfalso
    simp only [isPySpace, Bool.or_eq_true, decide_eq_true_eq, Bool.and_eq_true] at hps
    omega

theorem not_digit_of_letter {c : Char} (h : isAsciiLetter c = true) :
    isDigitChar c = false := by
  simp only [isAsciiLetter, Bool.or_eq_true, Bool.and_eq_true, decide_eq_true_eq] at h
  cases hd : isDigitChar c
  · rfl
  · exfalso
    simp only [isDigitChar, Bool.and_eq_true, decide_eq_true_eq] at hd
    omega

theorem not_pySpace_of_letter {c : Char} (h : isAsciiLetter c = true) :
    isPySpace c = false := by
  simp only [isAsciiLetter, Bool.or_eq_true, Bool.and_eq_true, decide_eq_true_eq] at h
  cases hps : isPySpace c
  · rfl
  · exfalso
    simp only [isPySpace, Bool.or_eq_true, decide_eq_true_eq, Bool.and_eq_true] at hps
    omega

theorem asciiLower_digit {c : Char} (h : isDigitChar c = true) : asciiLower c = c := by
  simp only [isDigitChar, Bool.and_eq_true, decide_eq_true_eq] at h
  have hn : ¬(65 ≤ c.toNat ∧ c.toNat ≤ 90) := by omega
  simp [asciiLower, hn]

theorem dropWhile_eq_self_of_head (p : Char → Bool) (cs : List Char)
    (h : ∀ c, cs.head? = some c → p c = false) : cs.dropWhile p = cs := by
  cases cs with
  | nil => rfl
  | cons a l =>
    rw [List.dropWhile_cons_of_neg]
    rw [h a rfl]
    simp

theorem pyStrip_eq_self (cs : List Char)
    (h1 : ∀ c, cs.head? = some c → isPySpace c = false)
    (h2 : ∀ c, cs.getLast? = some c → isPySpace c = false) : pyStrip cs = cs := by
  unfold pyStrip
  rw [dropWhile_eq_self_of_head _ _ h1]
  rw [dropWhile_eq_self_of_head _ _ (fun c hc => h2 c (by rwa [← List.head?_reverse]))]
  exact List.reverse_reverse cs

theorem filter_eq_self_of (p : Char → Bool) (cs : List Char)
    (h : ∀ c ∈ cs, p c = true) : cs.filter p = cs :=
  List.filter_eq_self.mpr h

theorem removeChar_eq_self (x : Char) (cs : List Char) (h : ∀ c ∈ cs, c ≠ x) :
    removeChar x cs = cs := by
  unfold removeChar
  exact List.filter_eq_self.mpr fun c hc => by simpa using h c hc

theorem mapChar_eq_self (x y : Char) (cs : List Char) (h : ∀ c ∈ cs, c ≠ x) :
    mapChar x y cs = cs := by
  unfold mapChar
  rw [List.map_congr_left fun c hc => if_neg (h c hc)]
  exact List.map_id cs

theorem span_append (p : Char → Bool) (l1 : List Char) (c : Char) (l2 : List Char)
    (h1 : ∀ x ∈ l1, p x = true) (hc : p c = false) :
    (l1 ++ c :: l2).takeWhile p = l1 ∧ (l1 ++ c :: l2).dropWhile p = c :: l2 := by
  induction l1 with
  | nil =>
    constructor
    · rw [List.nil_append, List.takeWhile_cons_of_neg]
      rw [hc]; simp
    · rw [List.nil_append]
      exact dropWhile_eq_self_of_head p (c :: l2) fun d hd => by
        injection hd with hd; subst hd; exact hc
  | cons a l ih =>
    have ha := h1 a (List.mem_cons_self a l)
    have ih' := ih fun x hx => h1 x (List.mem_cons_of_mem a hx)
    constructor
    · rw [List.cons_append, List.takeWhile_cons_of_pos ha, ih'.1]
    · rw [List.cons_append, List.dropWhile_cons_of_pos ha, ih'.2]

theorem digitsToNat_append2 (l : List Char) (a b : Char) :
    digitsToNat (l ++ [a, b]) = digitsToNat l * 100 + digitVal a * 10 + digitVal b := by
  unfold digitsToNat
  rw [List.foldl_append]
  simp only [List.foldl]
  omega

theorem head?_mem {l : List Char} {a : Char} (h : l.head? = some a) : a ∈ l := by
  cases l with
  | nil => cases h
  | cons b t =>
    injection h with h
    subst h
    exact List.mem_cons_self _ _

theorem getLast?_mem {l : List Char} {a : Char} (h : l.getLast? = some a) : a ∈ l := by
  rw [← List.head?_reverse] at h
  exact List.mem_reverse.mp (head?_mem h)

theorem mem_of_mem_dropWhile {p : Char → Bool} {a : Char} :
    ∀ {l : List Char}, a ∈ l.dropWhile p → a ∈ l := by
  intro l
  induction l with
  | nil => exact fun h => h
  | cons b t ih =>
    intro h
    cases hp : p b
    · rwa [List.dropWhile_cons_of_neg (by simp [hp])] at h
    · rw [List.dropWhile_cons_of_pos hp] at h
      exact List.mem_cons_of_mem b (ih h)

theorem mem_of_mem_drop {a : Char} {l : List Char} {n : Nat} (h : a ∈ l.drop n) :
    a ∈ l :=
  List.drop_subset n l h

/-! ### The Ozon amount search succeeds only in the presence of `₽` -/

theorem ozonAmtTail_ruble {g1 g2 rest : List Char} {r : List Char × List Char}
    (h : ozonAmtTail g1 g2 rest = some r) : '₽' ∈ rest := by
  unfold ozonAmtTail at h
  split at h
  case _ d1 d2 rest2 =>
    split_ifs at h with h1 h2
    have hmem : '₽' ∈ rest2.dropWhile isPySpace := head?_mem h2
    exact List.mem_cons_of_mem _ (List.mem_cons_of_mem _
      (List.mem_cons_of_mem _ (mem_of_mem_dropWhile hmem)))
  case _ => exact Option.noConfusion h

theorem ozonAmtCore_ruble {g1 u : List Char} {r : List Char × List Char}
    (h : ozonAmtCore g1 u = some r) : '₽' ∈ u := by
  unfold ozonAmtCore at h
  simp only [] at h
  split_ifs at h with h1 h2
  · exact mem_of_mem_drop (mem_of_mem_drop (ozonAmtTail_ruble h))
  · exact mem_of_mem_drop (ozonAmtTail_ruble h)

theorem ozonAmtMatchAt_ruble {t : List Char} {r : List Char × List Char}
    (h : ozonAmtMatchAt t = some r) : '₽' ∈ t := by
  unfold ozonAmtMatchAt at h
  split_ifs at h with h1
  · cases t with
    | nil => cases h1 <;> cases ‹([] : List Char).head? = _›
    | cons c rest => exact List.mem_cons_of_mem c (ozonAmtCore_ruble h)
  · exact ozonAmtCore_ruble h

theorem ozonAmtSearch_eq_none {cs : List Char} (h : '₽' ∉ cs) :
    ozonAmtSearch cs = none := by
  induction cs with
  | nil => rfl
  | cons c rest ih =>
    have hm : ozonAmtMatchAt (c :: rest) = none := by
      cases hmm : ozonAmtMatchAt (c :: rest) with
      | none => rfl
      | some g => exact absurd (ozonAmtMatchAt_ruble hmm) h
    simp only [ozonAmtSearch, hm]
    exact ih fun hmem => h (List.mem_cons_of_mem c hmem)

/-! ### Non-numeric text is rejected by the decimal grammar -/

theorem pyDecimalBody_letters_none (neg : Bool) (c0 : Char) (rest0 : List Char)
    (hl : ∀ c ∈ c0 :: rest0, isAsciiLetter c = true)
    (hspec : isDecimalSpecial (c0 :: rest0) = false) :
    pyDecimalBody neg (c0 :: rest0) = none := by
  have hc0 : isAsciiLetter c0 = true := hl c0 (List.mem_cons_self _ _)
  have hd0 : isDigitChar c0 = false := not_digit_of_letter hc0
  simp only [isDecimalSpecial, Bool.or_eq_true, decide_eq_true_eq, Bool.and_eq_true,
    List.all_eq_true, Bool.or_eq_false_iff, decide_eq_false_iff_not,
    Bool.and_eq_false_iff] at hspec
  have htw : List.takeWhile isDigitChar (c0 :: rest0) = [] :=
    List.takeWhile_cons_of_neg (by simp [hd0])
  have hdw : List.dropWhile isDigitChar (c0 :: rest0) = c0 :: rest0 :=
    dropWhile_eq_self_of_head _ _ fun c hc => by
      injection hc with hc; subst hc; exact hd0
  unfold pyDecimalBody
  simp only []
  rw [if_neg, if_neg]
  · rw [htw, hdw]
    rw [if_neg]
    · simp
    · intro hdot
      injection hdot with hdot
      subst hdot
      exact absurd hc0 (by decide)
  · intro hnan
    rcases hnan with ⟨h1, h2⟩ | ⟨h1, h2⟩ <;> simp_all <;>
      (obtain ⟨x, hx, hfx⟩ := hspec; rw [h2 x hx] at hfx; cases hfx)
  · intro hinf
    rcases hinf with h1 | h1 <;> simp_all

theorem tbParseAmount_letters_none (s : String) (hne : s.data ≠ [])
    (hl : ∀ c ∈ s.data, isAsciiLetter c = true)
    (hspec : isDecimalSpecial s.data = false) : tbParseAmount s = none := by
  show tbParseAmountL s.data = none
  have hstrip : pyStrip s.data = s.data :=
    pyStrip_eq_self _ (fun c hc => not_pySpace_of_letter (hl c (head?_mem hc)))
      (fun c hc => not_pySpace_of_letter (hl c (getLast?_mem hc)))
  have hrm : removeChar ' ' s.data = s.data :=
    removeChar_eq_self _ _ fun c hc => ne_of_pred isAsciiLetter (hl c hc) (by decide)
  have hmap : mapChar ',' '.' s.data = s.data :=
    mapChar_eq_self _ _ _ fun c hc => ne_of_pred isAsciiLetter (hl c hc) (by decide)
  have hund : (s.data).filter (fun c => c ≠ '_') = s.data :=
    filter_eq_self_of _ _ fun c hc => by
      simpa using ne_of_pred isAsciiLetter (hl c hc) (by decide : isAsciiLetter '_' = false)
  unfold tbParseAmountL
  rw [if_neg (by simpa [List.isEmpty_iff] using hne)]
  rw [hstrip, hrm, hmap]
  unfold pyDecimal
  rw [hstrip, hund]
  cases hcs : s.data with
  | nil => exact absurd hcs hne
  | cons c0 rest0 =>
    have hl' : ∀ c ∈ c0 :: rest0, isAsciiLetter c = true := hcs ▸ hl
    have hc0 : isAsciiLetter c0 = true := hl' c0 (List.mem_cons_self _ _)
    unfold pyDecimalCore
    rw [if_neg, if_neg]
    · exact pyDecimalBody_letters_none false c0 rest0 hl' (hcs ▸ hspec)
    · intro hh
      simp only [List.head?] at hh
      injection hh with hh
      subst hh
      exact absurd hc0 (by decide)
    · intro hh
      simp only [List.head?] at hh
      injection hh with hh
      subst hh
      exact absurd hc0 (by decide)

theorem ozonParseAmount_letters_none (s : String) (hne : s.data ≠ [])
    (hl : ∀ c ∈ s.data, isAsciiLetter c = true) : ozonParseAmount s = none := by
  show ozonParseAmountL s.data = none
  have hnr : '₽' ∉ s.data := fun hm => absurd (hl _ hm) (by decide)
  unfold ozonParseAmountL
  rw [if_neg (by simpa [List.isEmpty_iff] using hne)]
  rw [ozonAmtSearch_eq_none hnr]

/-- C4 counterexample: `TBankParser._parse_amount` accepts a token
missing the two decimal places — `"1000"` normalizes to the decimal
`1000`, not to no value as the claim states. -/
theorem tbParseAmount_missing_decimals_counterexample :
    tbParseAmount "1000" = some (PyDec.fin 1000 0) := by decide

/-- C4 (amended): the empty string and alphabetic non-numeric text (not
spelling a special decimal word such as `inf`/`nan`) normalize to no
value, and normalization is total (never an escaping exception);
`OzonBankParser._parse_amount` also rejects tokens missing the two
decimal places, but `TBankParser._parse_amount` accepts any string the
`Decimal` grammar accepts, so the bare integer `"1000"` yields `1000`
rather than no value. -/
theorem parse_amount_malformed :
    (tbParseAmount "" = none ∧ yandexParseAmount "" = none ∧
      alfaParseAmount "" = none ∧ ozonParseAmount "" = none) ∧
    (∀ s : String, s.data ≠ [] → (∀ c ∈ s.data, isAsciiLetter c = true) →
      isDecimalSpecial s.data = false →
      tbParseAmount s = none ∧ ozonParseAmount s = none) ∧
    ozonParseAmount "1000" = none ∧
    tbParseAmount "1000" = some (PyDec.fin 1000 0) := by
  refine ⟨by decide, ?_, by decide, by decide⟩
  intro s hne hl hspec
  exact ⟨tbParseAmount_letters_none s hne hl hspec,
    ozonParseAmount_letters_none s hne hl⟩

/-- Witness for C4 at the concrete malformed token `"abc"`. -/
theorem parse_amount_malformed_witness :
    tbParseAmount "abc" = none ∧ ozonParseAmount "abc" = none :=
  parse_amount_malformed.2.1 "abc" (by decide) (by decide) (by decide)

/-! ## The well-formed amount-token grammar (C3)

A token of the spec grammar: optional sign, a first digit group, further
digit groups each preceded by a grouping space, then a decimal separator
(`,` or `.`) and exactly two decimal digits. -/

/-- Render a token of the grammar with grouping character `' '`. -/
def renderTok (sgn g1 : List Char) (gs : List (List Char)) (sep : Char)
    (d1 d2 : Char) : List Char :=
  sgn ++ g1 ++ (gs.map fun g => ' ' :: g).flatten ++ sep :: [d1, d2]

/-- The decimal value denoted by a token: coefficient
`± (digits * 100 + d1 * 10 + d2)` with exponent `-2` — independent of the
separator used. -/
def tokVal (sgn g1 : List Char) (gs : List (List Char)) (d1 d2 : Char) : PyDec :=
  PyDec.fin
    (if sgn = ['-'] then
      -((digitsToNat (g1 ++ gs.flatten) * 100 + digitVal d1 * 10 + digitVal d2 : Nat) : Int)
    else ((digitsToNat (g1 ++ gs.flatten) * 100 + digitVal d1 * 10 + digitVal d2 : Nat) : Int))
    (-2)

theorem mapChar_append (x y : Char) (l1 l2 : List Char) :
    mapChar x y (l1 ++ l2) = mapChar x y l1 ++ mapChar x y l2 := by
  unfold mapChar
  exact List.map_append _ _ _

theorem removeChar_append (x : Char) (l1 l2 : List Char) :
    removeChar x (l1 ++ l2) = removeChar x l1 ++ removeChar x l2 := by
  unfold removeChar
  exact List.filter_append _ _

theorem removeChar_cons_of_ne {x c : Char} (l : List Char) (h : c ≠ x) :
    removeChar x (c :: l) = c :: removeChar x l := by
  unfold removeChar
  rw [List.filter_cons_of_pos (by simpa using h)]

theorem removeChar_cons_self (x : Char) (l : List Char) :
    removeChar x (x :: l) = removeChar x l := by
  unfold removeChar
  rw [List.filter_cons_of_neg (by simp)]

/-- Dropping the grouping spaces from the rendered groups leaves exactly
the concatenated digit groups. -/
theorem removeChar_space_groups (gs : List (List Char))
    (h : ∀ g ∈ gs, ∀ c ∈ g, isDigitChar c = true) :
    removeChar ' ' ((gs.map fun g => ' ' :: g).flatten) = gs.flatten := by
  induction gs with
  | nil => rfl
  | cons g gs' ih =>
    simp only [List.map_cons, List.flatten_cons]
    rw [removeChar_append, removeChar_cons_self]
    rw [removeChar_eq_self _ _ fun c hc =>
      ne_of_pred isDigitChar (h g (List.mem_cons_self _ _) c hc) (by decide)]
    rw [ih fun g' hg' => h g' (List.mem_cons_of_mem g hg')]

/-- Whitespace-stripping and space-removal of a rendered token: the strip
is the identity (the token starts with a sign or digit and ends with a
digit) and removing ASCII spaces deletes exactly the grouping spaces. -/
theorem removeChar_strip_renderTok (sgn g1 : List Char) (gs : List (List Char))
    (sep : Char) (d1 d2 : Char)
    (hsgn : sgn = [] ∨ sgn = ['+'] ∨ sgn = ['-'])
    (hg1 : g1 ≠ []) (hg1d : ∀ c ∈ g1, isDigitChar c = true)
    (hgs : ∀ g ∈ gs, ∀ c ∈ g, isDigitChar c = true)
    (hsep : sep = ',' ∨ sep = '.')
    (hd1 : isDigitChar d1 = true) (hd2 : isDigitChar d2 = true) :
    removeChar ' ' (pyStrip (renderTok sgn g1 gs sep d1 d2)) =
      sgn ++ g1 ++ gs.flatten ++ sep :: [d1, d2] := by
  obtain ⟨c0, g1', rfl⟩ : ∃ c0 g1', g1 = c0 :: g1' := by
    cases g1 with
    | nil => exact absurd rfl hg1
    | cons a l => exact ⟨a, l, rfl⟩
  have hc0 : isDigitChar c0 = true := hg1d c0 (List.mem_cons_self _ _)
  have hstrip : pyStrip (renderTok sgn (c0 :: g1') gs sep d1 d2) =
      renderTok sgn (c0 :: g1') gs sep d1 d2 := by
    apply pyStrip_eq_self
    · intro c hc
      rcases hsgn with rfl | rfl | rfl
      · simp only [renderTok, List.nil_append, List.cons_append, List.head?] at hc
        injection hc with hc
        subst hc
        exact not_pySpace_of_digit hc0
      · simp only [renderTok, List.cons_append, List.nil_append, List.head?] at hc
        injection hc with hc
        subst hc
        decide
      · simp only [renderTok, List.cons_append, List.nil_append, List.head?] at hc
        injection hc with hc
        subst hc
        decide
    · intro c hc
      have hshape : renderTok sgn (c0 :: g1') gs sep d1 d2 =
          (sgn ++ (c0 :: g1') ++ (gs.map fun g => ' ' :: g).flatten ++ [sep, d1]) ++ [d2] := by
        simp [renderTok, List.append_assoc]
      rw [hshape, List.getLast?_concat] at hc
      injection hc with hc
      subst hc
      exact not_pySpace_of_digit hd2
  rw [hstrip]
  unfold renderTok
  rw [removeChar_append, removeChar_append, removeChar_append]
  rw [removeChar_space_groups gs hgs]
  rw [removeChar_eq_self _ (c0 :: g1') fun c hc =>
    ne_of_pred isDigitChar (hg1d c hc) (by decide)]
  have hsgn' : removeChar ' ' sgn = sgn := by
    rcases hsgn with rfl | rfl | rfl <;> decide
  have hsep' : removeChar ' ' (sep :: [d1, d2]) = sep :: [d1, d2] := by
    apply removeChar_eq_self
    intro c hc
    simp only [List.mem_cons, List.mem_singleton, List.not_mem_nil, or_false] at hc
    rcases hc with rfl | rfl | rfl
    · rcases hsep with rfl | rfl <;> decide
    · exact ne_of_pred isDigitChar hd1 (by decide)
    · exact ne_of_pred isDigitChar hd2 (by decide)
  rw [hsgn', hsep']

/-- Replacing the decimal separator: on `sign ++ digits ++ sep :: [d1, d2]`
the comma-to-dot replacement touches exactly the separator. -/
theorem mapChar_comma_mid (sgn ds : List Char) (sep : Char) (d1 d2 : Char)
    (hsgn : sgn = [] ∨ sgn = ['+'] ∨ sgn = ['-'])
    (hdsd : ∀ c ∈ ds, isDigitChar c = true)
    (hsep : sep = ',' ∨ sep = '.')
    (hd1 : isDigitChar d1 = true) (hd2 : isDigitChar d2 = true) :
    mapChar ',' '.' (sgn ++ ds ++ sep :: [d1, d2]) = sgn ++ ds ++ '.' :: [d1, d2] := by
  rw [mapChar_append, mapChar_append]
  have hsgn' : mapChar ',' '.' sgn = sgn := by
    rcases hsgn with rfl | rfl | rfl <;> decide
  have hds' : mapChar ',' '.' ds = ds :=
    mapChar_eq_self _ _ _ fun c hc => ne_of_pred isDigitChar (hdsd c hc) (by decide)
  have htail : mapChar ',' '.' (sep :: [d1, d2]) = '.' :: [d1, d2] := by
    have h12 : mapChar ',' '.' [d1, d2] = [d1, d2] :=
      mapChar_eq_self _ _ _ fun c hc => by
        simp only [List.mem_cons, List.not_mem_nil, or_false, List.mem_singleton] at hc
        rcases hc with rfl | rfl
        · exact ne_of_pred isDigitChar hd1 (by decide)
        · exact ne_of_pred isDigitChar hd2 (by decide)
    show (if sep = ',' then '.' else sep) :: mapChar ',' '.' [d1, d2] = '.' :: [d1, d2]
    rw [h12]
    rcases hsep with rfl | rfl <;> simp
  rw [hsgn', hds', htail]

/-- The en-dash replacement of the Yandex normalizer does not touch a
token of the grammar. -/
theorem mapChar_dash_mid (sgn ds : List Char) (sep : Char) (d1 d2 : Char)
    (hsgn : sgn = [] ∨ sgn = ['+'] ∨ sgn = ['-'])
    (hdsd : ∀ c ∈ ds, isDigitChar c = true)
    (hsep : sep = ',' ∨ sep = '.')
    (hd1 : isDigitChar d1 = true) (hd2 : isDigitChar d2 = true) :
    mapChar '–' '-' (sgn ++ ds ++ sep :: [d1, d2]) = sgn ++ ds ++ sep :: [d1, d2] := by
  apply mapChar_eq_self
  intro c hc
  rcases List.mem_append.mp hc with hc' | hc'
  · rcases List.mem_append.mp hc' with hc'' | hc''
    · rcases hsgn with rfl | rfl | rfl
      · cases hc''
      · simp only [List.mem_singleton] at hc''; subst hc''; decide
      · simp only [List.mem_singleton] at hc''; subst hc''; decide
    · exact ne_of_pred isDigitChar (hdsd c hc'') (by decide)
  · simp only [List.mem_cons, List.not_mem_nil, or_false, List.mem_singleton] at hc'
    rcases hc' with rfl | rfl | rfl
    · rcases hsep with rfl | rfl <;> decide
    · exact ne_of_pred isDigitChar hd1 (by decide)
    · exact ne_of_pred isDigitChar hd2 (by decide)

/-- Evaluation of the decimal grammar body on `digits ++ "." ++ two
digits`. -/
theorem pyDecimalBody_digits_dot (neg : Bool) (c0 : Char) (ds' : List Char)
    (d1 d2 : Char) (hc0 : isDigitChar c0 = true)
    (hds' : ∀ c ∈ ds', isDigitChar c = true)
    (hd1 : isDigitChar d1 = true) (hd2 : isDigitChar d2 = true) :
    pyDecimalBody neg ((c0 :: ds') ++ '.' :: [d1, d2]) =
      some (PyDec.fin
        (if neg then
          -((digitsToNat (c0 :: ds') * 100 + digitVal d1 * 10 + digitVal d2 : Nat) : Int)
        else ((digitsToNat (c0 :: ds') * 100 + digitVal d1 * 10 + digitVal d2 : Nat) : Int))
        (-2)) := by
  have hall : ∀ c ∈ c0 :: ds', isDigitChar c = true := by
    intro c hc
    rcases List.mem_cons.mp hc with rfl | hc'
    · exact hc0
    · exact hds' c hc'
  have hspan := span_append isDigitChar (c0 :: ds') '.' [d1, d2] hall (by decide)
  unfold pyDecimalBody
  simp only []
  rw [if_neg, if_neg]
  · rw [hspan.1, hspan.2]
    rw [if_pos (show (['.', d1, d2] : List Char).head? = some '.' from rfl)]
    simp only [List.tail_cons]
    have hfp : List.takeWhile isDigitChar [d1, d2] = [d1, d2] := by
      rw [List.takeWhile_cons_of_pos hd1, List.takeWhile_cons_of_pos hd2]
      rfl
    have hdp : List.dropWhile isDigitChar [d1, d2] = [] := by
      rw [List.dropWhile_cons_of_pos hd1, List.dropWhile_cons_of_pos hd2]
      rfl
    rw [hfp, hdp]
    rw [if_neg (by simp)]
    unfold pyDecFinish
    rw [if_pos (show ([] : List Char).isEmpty = true from rfl)]
    unfold pyDecOfParts
    simp only []
    rw [digitsToNat_append2]
    norm_num
  · -- not a NaN form: the first lowered character is a digit
    intro h
    rcases h with ⟨h1, _⟩ | ⟨h1, _⟩ <;>
    · rw [List.cons_append, List.map_cons, asciiLower_digit hc0] at h1
      have hc0' := congrArg List.head? h1
      simp only [List.head?] at hc0'
      injection hc0' with hc0'
      subst hc0'
      exact absurd hc0 (by decide)
  · -- not an infinity form
    intro h
    rcases h with h1 | h1 <;>
    · rw [List.cons_append, List.map_cons, asciiLower_digit hc0] at h1
      have hc0' := congrArg List.head? h1
      simp only [List.head?] at hc0'
      injection hc0' with hc0'
      subst hc0'
      exact absurd hc0 (by decide)

/-- Evaluation of `Decimal` on `sign? ++ digits ++ "." ++ two digits`. -/
theorem pyDecimal_signed_decimal (sgn ds : List Char) (d1 d2 : Char)
    (hsgn : sgn = [] ∨ sgn = ['+'] ∨ sgn = ['-'])
    (hds : ds ≠ []) (hdsd : ∀ c ∈ ds, isDigitChar c = true)
    (hd1 : isDigitChar d1 = true) (hd2 : isDigitChar d2 = true) :
    pyDecimal (sgn ++ ds ++ '.' :: [d1, d2]) =
      some (PyDec.fin
        (if sgn = ['-'] then
          -((digitsToNat ds * 100 + digitVal d1 * 10 + digitVal d2 : Nat) : Int)
        else ((digitsToNat ds * 100 + digitVal d1 * 10 + digitVal d2 : Nat) : Int))
        (-2)) := by
  obtain ⟨c0, ds', rfl⟩ : ∃ c0 ds'', ds = c0 :: ds'' := by
    cases ds with
    | nil => exact absurd rfl hds
    | cons a l => exact ⟨a, l, rfl⟩
  have hc0 : isDigitChar c0 = true := hdsd c0 (List.mem_cons_self _ _)
  have hds' : ∀ c ∈ ds', isDigitChar c = true :=
    fun c hc => hdsd c (List.mem_cons_of_mem c0 hc)
  have hstrip : pyStrip (sgn ++ (c0 :: ds') ++ '.' :: [d1, d2]) =
      sgn ++ (c0 :: ds') ++ '.' :: [d1, d2] := by
    apply pyStrip_eq_self
    · intro c hc
      rcases hsgn with rfl | rfl | rfl
      · simp only [List.nil_append, List.cons_append, List.head?] at hc
        injection hc with hc
        subst hc
        exact not_pySpace_of_digit hc0
      · simp only [List.cons_append, List.nil_append, List.head?] at hc
        injection hc with hc
        subst hc
        decide
      · simp only [List.cons_append, List.nil_append, List.head?] at hc
        injection hc with hc
        subst hc
        decide
    · intro c hc
      have hshape : sgn ++ (c0 :: ds') ++ '.' :: [d1, d2] =
          (sgn ++ (c0 :: ds') ++ ['.', d1]) ++ [d2] := by
        simp [List.append_assoc]
      rw [hshape, List.getLast?_concat] at hc
      injection hc with hc
      subst hc
      exact not_pySpace_of_digit hd2
  have hund : (sgn ++ (c0 :: ds') ++ '.' :: [d1, d2]).filter (fun c => c ≠ '_') =
      sgn ++ (c0 :: ds') ++ '.' :: [d1, d2] := by
    apply filter_eq_self_of
    intro c hc
    simp only [decide_eq_true_eq]
    rcases List.mem_append.mp hc with hc' | hc'
    · rcases List.mem_append.mp hc' with hc'' | hc''
      · rcases hsgn with rfl | rfl | rfl
        · cases hc''
        · simp only [List.mem_singleton] at hc''; subst hc''; decide
        · simp only [List.mem_singleton] at hc''; subst hc''; decide
      · exact ne_of_pred isDigitChar (hdsd c hc'') (by decide)
    · simp only [List.mem_cons, List.not_mem_nil, or_false, List.mem_singleton] at hc'
      rcases hc' with rfl | rfl | rfl
      · decide
      · exact ne_of_pred isDigitChar hd1 (by decide)
      · exact ne_of_pred isDigitChar hd2 (by decide)
  unfold pyDecimal
  rw [hstrip, hund]
  unfold pyDecimalCore
  rcases hsgn with rfl | rfl | rfl
  · rw [List.nil_append]
    rw [if_neg, if_neg]
    · have := pyDecimalBody_digits_dot false c0 ds' d1 d2 hc0 hds' hd1 hd2
      rw [this]
      norm_num
    · intro h
      rw [List.cons_append] at h
      simp only [List.head?] at h
      injection h with h
      subst h
      exact absurd hc0 (by decide)
    · intro h
      rw [List.cons_append] at h
      simp only [List.head?] at h
      injection h with h
      subst h
      exact absurd hc0 (by decide)
  · rw [if_pos (show (['+'] ++ (c0 :: ds') ++ '.' :: [d1, d2]).head? = some '+' from rfl)]
    have hb := pyDecimalBody_digits_dot false c0 ds' d1 d2 hc0 hds' hd1 hd2
    rw [show (['+'] ++ (c0 :: ds') ++ '.' :: [d1, d2]).tail =
      (c0 :: ds') ++ '.' :: [d1, d2] from rfl]
    rw [hb]
    rw [if_neg (show ¬(false = true) by decide),
      if_neg (show ¬((['+'] : List Char) = ['-']) by decide)]
  · have hminus : (['-'] ++ (c0 :: ds') ++ '.' :: [d1, d2]).head? = some '-' := rfl
    rw [if_neg (fun hh : _ = some '+' => by
      rw [hminus] at hh
      injection hh with hh
      exact absurd hh (by decide))]
    rw [if_pos hminus]
    have hb := pyDecimalBody_digits_dot true c0 ds' d1 d2 hc0 hds' hd1 hd2
    rw [show (['-'] ++ (c0 :: ds') ++ '.' :: [d1, d2]).tail =
      (c0 :: ds') ++ '.' :: [d1, d2] from rfl]
    rw [hb]
    rw [if_pos (show true = true from rfl),
      if_pos (show (['-'] : List Char) = ['-'] from rfl)]

/-- C3 counterexample: the claim requires non-breaking-space grouping to
be stripped, but only the ASCII space is removed, so the NBSP-grouped
token `"+1 000,50"` (U+00A0 grouping) fails normalization in both the
TBank and Yandex normalizers, while the ASCII-space version succeeds. -/
theorem amount_nbsp_counterexample :
    tbParseAmount "+1 000,50" = none ∧
    yandexParseAmount "+1 000,50" = none ∧
    tbParseAmount "+1 000,50" = some (PyDec.fin 100050 (-2)) := by decide

/-- C3 (amended): for every well-formed amount token of the grammar whose
grouping character is the ASCII space — optional sign, digit groups,
then a comma or dot followed by exactly two decimal digits — the TBank
and Yandex amount normalizers return the exact decimal value of the
token, identical regardless of which decimal separator is used, with the
grouping spaces stripped.  (Tokens grouped with the non-breaking space
U+00A0 are not stripped and yield no value — see the counterexample.) -/
theorem amount_token_normalization (sgn g1 : List Char) (gs : List (List Char))
    (d1 d2 : Char)
    (hsgn : sgn = [] ∨ sgn = ['+'] ∨ sgn = ['-'])
    (hg1 : g1 ≠ []) (hg1d : ∀ c ∈ g1, isDigitChar c = true)
    (hgs : ∀ g ∈ gs, ∀ c ∈ g, isDigitChar c = true)
    (hd1 : isDigitChar d1 = true) (hd2 : isDigitChar d2 = true) :
    tbParseAmountL (renderTok sgn g1 gs ',' d1 d2) = some (tokVal sgn g1 gs d1 d2) ∧
    tbParseAmountL (renderTok sgn g1 gs '.' d1 d2) = some (tokVal sgn g1 gs d1 d2) ∧
    yandexParseAmountL (renderTok sgn g1 gs ',' d1 d2) = some (tokVal sgn g1 gs d1 d2) ∧
    yandexParseAmountL (renderTok sgn g1 gs '.' d1 d2) = some (tokVal sgn g1 gs d1 d2) ∧
    pyDecToRat (tokVal sgn g1 gs d1 d2) =
      mkRat (if sgn = ['-'] then
          -((digitsToNat (g1 ++ gs.flatten) * 100 + digitVal d1 * 10 + digitVal d2 : Nat) : Int)
        else ((digitsToNat (g1 ++ gs.flatten) * 100 + digitVal d1 * 10 + digitVal d2 : Nat) : Int))
        100 := by
  have hds : g1 ++ gs.flatten ≠ [] := by
    intro h
    exact hg1 (List.append_eq_nil.mp h).1
  have hdsd : ∀ c ∈ g1 ++ gs.flatten, isDigitChar c = true := by
    intro c hc
    rcases List.mem_append.mp hc with h | h
    · exact hg1d c h
    · obtain ⟨g, hg, hcg⟩ := List.mem_flatten.mp h
      exact hgs g hg c hcg
  have key : ∀ sep, sep = ',' ∨ sep = '.' →
      tbParseAmountL (renderTok sgn g1 gs sep d1 d2) = some (tokVal sgn g1 gs d1 d2) ∧
      yandexParseAmountL (renderTok sgn g1 gs sep d1 d2) = some (tokVal sgn g1 gs d1 d2) := by
    intro sep hsep
    have hmid := removeChar_strip_renderTok sgn g1 gs sep d1 d2 hsgn hg1 hg1d hgs hsep hd1 hd2
    have hshape : sgn ++ g1 ++ gs.flatten ++ sep :: [d1, d2] =
        sgn ++ (g1 ++ gs.flatten) ++ sep :: [d1, d2] := by
      simp [List.append_assoc]
    rw [hshape] at hmid
    have hne : ¬((renderTok sgn g1 gs sep d1 d2).isEmpty = true) := by
      simp [renderTok]
    constructor
    · unfold tbParseAmountL
      rw [if_neg hne, hmid,
        mapChar_comma_mid sgn (g1 ++ gs.flatten) sep d1 d2 hsgn hdsd hsep hd1 hd2,
        pyDecimal_signed_decimal sgn (g1 ++ gs.flatten) d1 d2 hsgn hds hdsd hd1 hd2]
      rfl
    · unfold yandexParseAmountL
      rw [if_neg hne, hmid,
        mapChar_dash_mid sgn (g1 ++ gs.flatten) sep d1 d2 hsgn hdsd hsep hd1 hd2,
        mapChar_comma_mid sgn (g1 ++ gs.flatten) sep d1 d2 hsgn hdsd hsep hd1 hd2,
        pyDecimal_signed_decimal sgn (g1 ++ gs.flatten) d1 d2 hsgn hds hdsd hd1 hd2]
      rfl
  refine ⟨(key ',' (Or.inl rfl)).1, (key '.' (Or.inr rfl)).1,
    (key ',' (Or.inl rfl)).2, (key '.' (Or.inr rfl)).2, ?_⟩
  unfold tokVal
  rfl

/-- Witness for C3 at the concrete token `+1 000,50` (and its dotted
variant): both yield the decimal `1000.50`. -/
theorem amount_token_normalization_witness :
    tbParseAmountL (renderTok ['+'] ['1'] [['0', '0', '0']] ',' '5' '0') =
      tbParseAmountL (renderTok ['+'] ['1'] [['0', '0', '0']] '.' '5' '0') ∧
    tbParseAmountL (renderTok ['+'] ['1'] [['0', '0', '0']] ',' '5' '0') =
      some (PyDec.fin 100050 (-2)) := by
  have h := amount_token_normalization ['+'] ['1'] [['0', '0', '0']] '5' '0'
    (by decide) (by decide) (by decide) (by decide) (by decide) (by decide)
  exact ⟨h.1.trans h.2.1.symm, h.1.trans (by decide)⟩

/-! ## `datetime.strptime` on the formats used by the parsers

The parsers always call `strptime` on strings assembled from regex
captures of fixed shape (`DD.MM.YYYY`, `HH:MM`, `HH:MM:SS`), so the
model covers exactly those shapes; a `ValueError` is `none`. -/

def isLeapYear (y : Nat) : Bool := y % 4 = 0 && (y % 100 ≠ 0 || y % 400 = 0)

def daysInMonth (y m : Nat) : Nat :=
  if m = 2 then (if isLeapYear y then 29 else 28)
  else if m = 4 ∨ m = 6 ∨ m = 9 ∨ m = 11 then 30
  else 31

/-- `datetime.strptime(s, "%d.%m.%Y")` on a ten-character capture. -/
def strptimeDMY (cs : List Char) : Option DateTime :=
  match cs with
  | [a1, a2, '.', b1, b2, '.', c1, c2, c3, c4] =>
    if [a1, a2, b1, b2, c1, c2, c3, c4].all isDigitChar then
      let d := digitVal a1 * 10 + digitVal a2
      let m := digitVal b1 * 10 + digitVal b2
      let y := digitVal c1 * 1000 + digitVal c2 * 100 + digitVal c3 * 10 + digitVal c4
      if 1 ≤ m ∧ m ≤ 12 ∧ 1 ≤ d ∧ d ≤ daysInMonth y m ∧ 1 ≤ y then
        some { year := y, month := m, day := d }
      else none
    else none
  | _ => none

/-- `datetime.strptime(s, "%d.%m.%Y %H:%M")`. -/
def strptimeDMY_HM (cs : List Char) : Option DateTime :=
  match cs with
  | [a1, a2, '.', b1, b2, '.', c1, c2, c3, c4, ' ', h1, h2, ':', n1, n2] =>
    match strptimeDMY [a1, a2, '.', b1, b2, '.', c1, c2, c3, c4] with
    | none => none
    | some dt =>
      if [h1, h2, n1, n2].all isDigitChar then
        let hh := digitVal h1 * 10 + digitVal h2
        let nn := digitVal n1 * 10 + digitVal n2
        if hh ≤ 23 ∧ nn ≤ 59 then some { dt with hour := hh, minute := nn } else none
      else none
  | _ => none

/-- `datetime.strptime(s, "%d.%m.%Y %H:%M:%S")`. -/
def strptimeDMY_HMS (cs : List Char) : Option DateTime :=
  match cs with
  | [a1, a2, '.', b1, b2, '.', c1, c2, c3, c4, ' ',
     h1, h2, ':', n1, n2, ':', s1, s2] =>
    match strptimeDMY [a1, a2, '.', b1, b2, '.', c1, c2, c3, c4] with
    | none => none
    | some dt =>
      if [h1, h2, n1, n2, s1, s2].all isDigitChar then
        let hh := digitVal h1 * 10 + digitVal h2
        let nn := digitVal n1 * 10 + digitVal n2
        let ss := digitVal s1 * 10 + digitVal s2
        if hh ≤ 23 ∧ nn ≤ 59 ∧ ss ≤ 59 then
          some { dt with hour := hh, minute := nn, second := ss }
        else none
      else none
  | _ => none

/-! ## TBank line parser (`TBankParser._parse_lines`, tbank.py)

`TRANSACTION_LINE_PATTERN` is
`^(\d{2}\.\d{2}\.\d{4})\s+(\d{2}\.\d{2}\.\d{4})\s+([+-][\d\s]+[.,]\d{2})\s*₽\s+([+-][\d\s]+[.,]\d{2})\s*₽\s+(.+?)\s+(\d{4})$`.
Each quantifier junction is deterministic except the lazy description,
which is resolved by the standard backtracking order (outer `\s+` longest
first, then shortest description first); the hand-written matcher below
follows exactly that order. -/

/-- `\d{2}\.\d{2}\.\d{4}` as a prefix; returns the capture and the rest. -/
def parseDate10 : List Char → Option (List Char × List Char)
  | a1 :: a2 :: '.' :: b1 :: b2 :: '.' :: c1 :: c2 :: c3 :: c4 :: rest =>
    if [a1, a2, b1, b2, c1, c2, c3, c4].all isDigitChar then
      some ([a1, a2, '.', b1, b2, '.', c1, c2, c3, c4], rest)
    else none
  | _ => none

/-- `\s+` before a non-whitespace-only continuation (the run is forced
maximal because the following pattern element cannot match whitespace). -/
def skipWs1 (cs : List Char) : Option (List Char) :=
  let w := (cs.takeWhile isPySpace).length
  if 1 ≤ w then some (cs.drop w) else none

/-- `[+-][\d\s]+[.,]\d{2}`: the class run is forced maximal because the
separator is in neither `\d` nor `\s`. -/
def parseSignedAmt (cs : List Char) : Option (List Char × List Char) :=
  match cs with
  | s :: rest =>
    if s = '+' ∨ s = '-' then
      let run := rest.takeWhile fun c => isDigitChar c || isPySpace c
      if run.isEmpty then none
      else
        match rest.drop run.length with
        | sep :: e1 :: e2 :: rest2 =>
          if (sep = ',' ∨ sep = '.') ∧ isDigitChar e1 = true ∧ isDigitChar e2 = true then
            some (s :: run ++ sep :: [e1, e2], rest2)
          else none
        | _ => none
    else none
  | [] => none

/-- `\s*₽`: skip the maximal whitespace run, then the ruble sign. -/
def skipWsRuble (cs : List Char) : Option (List Char) :=
  match cs.dropWhile isPySpace with
  | '₽' :: r => some r
  | _ => none

/-- Lazy group: consume at least one character, preferring the shortest
prefix whose remainder satisfies `tail`. -/
def lazySplit {β : Type} (tail : List Char → Option β) :
    List Char → List Char → Option (List Char × β)
  | _, [] => none
  | acc, c :: u =>
    match tail u with
    | some b => some (acc ++ [c], b)
    | none => lazySplit tail (acc ++ [c]) u

/-- `\s+(.+?)` followed by `tail`: the leading whitespace run is tried
longest first (regex greedy), the description shortest first (lazy). -/
def wsLazySplitGo {β : Type} (tail : List Char → Option β) (t : List Char) :
    Nat → Option (List Char × β)
  | 0 => none
  | a + 1 =>
    match lazySplit tail [] (t.drop (a + 1)) with
    | some r => some r
    | none => wsLazySplitGo tail t a

def wsLazySplit {β : Type} (tail : List Char → Option β) (t : List Char) :
    Option (List Char × β) :=
  wsLazySplitGo tail t ((t.takeWhile isPySpace).length)

/-- `\s+(\d{4})$`, consuming the whole remainder; returns the card
capture. -/
def tbTailWsDigits4 (u : List Char) : Option (List Char) :=
  let k := (u.takeWhile isPySpace).length
  if 1 ≤ k then
    let rest := u.drop k
    if rest.length = 4 ∧ rest.all isDigitChar then some rest else none
  else none

/-- Captures of `TRANSACTION_LINE_PATTERN`. -/
structure TBStart where
  date1 : List Char
  date2 : List Char
  amt1 : List Char
  amt2 : List Char
  desc : List Char
  card : List Char
deriving DecidableEq, Repr

/-- `TRANSACTION_LINE_PATTERN.match(line)`. -/
def tbStartMatch (cs : List Char) : Option TBStart :=
  match parseDate10 cs with
  | none => none
  | some (date1, r1) =>
    match skipWs1 r1 with
    | none => none
    | some r2 =>
      match parseDate10 r2 with
      | none => none
      | some (date2, r3) =>
        match skipWs1 r3 with
        | none => none
        | some r4 =>
          match parseSignedAmt r4 with
          | none => none
          | some (amt1, r5) =>
            match skipWsRuble r5 with
            | none => none
            | some r6 =>
              match skipWs1 r6 with
              | none => none
              | some r7 =>
                match parseSignedAmt r7 with
                | none => none
                | some (amt2, r8) =>
                  match skipWsRuble r8 with
                  | none => none
                  | some r9 =>
                    match wsLazySplit tbTailWsDigits4 r9 with
                    | none => none
                    | some (desc, card) =>
                      some ⟨date1, date2, amt1, amt2, desc, card⟩

/-- `TIME_LINE_PATTERN.match(line)`:
`^(\d{2}:\d{2})\s+(\d{2}:\d{2})\s*(.*?)$`; the third group is the
remainder after the greedy `\s*`. -/
def tbTimeMatch (cs : List Char) : Option (List Char × List Char × List Char) :=
  match cs with
  | h1 :: h2 :: ':' :: m1 :: m2 :: rest =>
    if [h1, h2, m1, m2].all isDigitChar then
      match skipWs1 rest with
      | none => none
      | some r2 =>
        match r2 with
        | g1 :: g2 :: ':' :: n1 :: n2 :: rest2 =>
          if [g1, g2, n1, n2].all isDigitChar then
            some ([h1, h2, ':', m1, m2], [g1, g2, ':', n1, n2],
              rest2.dropWhile isPySpace)
          else none
        | _ => none
    else none
  | _ => none

/-- The deny-list of `TBankParser._is_continuation_line`. -/
def tbSkipPatterns : List (List Char) :=
  ["Дата и время".data, "операции".data, "списания".data, "АО «ТБанк»".data,
   "универсальная лицензия".data, "БИК".data, "Пополнения".data,
   "Расходы".data, "Итого".data]

/-- `TBankParser._is_continuation_line` on a stripped line. -/
def tbIsContinuation (cs : List Char) : Bool :=
  if cs.isEmpty then false
  else if (parseDate10 cs).isSome then false
  else if tbSkipPatterns.any (fun p => containsSub p cs) then false
  else if cs.all isDigitChar then false
  else true

/-- Time lines and continuation lines are consumable by the inner loop. -/
def tbConsumable (s : List Char) : Bool :=
  (tbTimeMatch s).isSome || tbIsContinuation s

/-- The inner continuation loop of `_parse_lines`: starting after a
transaction-start line, greedily consume time lines and continuation
lines, record the first time pair, and return the collected description
parts and the remaining lines. -/
def tbConsume : Option (List Char × List Char) → List String →
    Option (List Char × List Char) × List (List Char) × List String
  | ts, [] => (ts, [], [])
  | ts, l :: rest =>
    let s := pyStrip l.data
    match tbTimeMatch s with
    | some (t1, t2, cont) =>
      let ts' := if ts.isSome then ts else some (t1, t2)
      let c := tbConsume ts' rest
      let contS := pyStrip cont
      (c.1, if contS.isEmpty then c.2.1 else contS :: c.2.1, c.2.2)
    | none =>
      if tbIsContinuation s then
        let c := tbConsume ts rest
        (c.1, s :: c.2.1, c.2.2)
      else (ts, [], l :: rest)

theorem tbConsume_rem_length (ts : Option (List Char × List Char))
    (lines : List String) : (tbConsume ts lines).2.2.length ≤ lines.length := by
  induction lines generalizing ts with
  | nil => simp [tbConsume]
  | cons l rest ih =>
    simp only [tbConsume]
    cases tbTimeMatch (pyStrip l.data) with
    | some t =>
      obtain ⟨t1, t2, cont⟩ := t
      simp only []
      exact Nat.le_trans (ih _) (Nat.le_succ _)
    | none =>
      simp only []
      by_cases hc : tbIsContinuation (pyStrip l.data) = true
      · rw [if_pos hc]
        exact Nat.le_trans (ih _) (Nat.le_succ _)
      · rw [if_neg hc]

/-- Build one transaction from the captures, the recorded times, and the
continuation parts — the body of the `try` block of `_parse_lines`:
date parsing may fail (`ValueError` → no transaction), the transaction is
emitted only when the amount normalized and the cleaned description is
nonempty. -/
def tbBuild (g : TBStart) (ts : Option (List Char × List Char))
    (parts : List (List Char)) : Option Transaction :=
  let full := cleanDescription (joinSpace (g.desc :: parts))
  let dates : Option (DateTime × DateTime) :=
    match ts with
    | some (t1, t2) =>
      match strptimeDMY_HM (g.date1 ++ ' ' :: t1),
          strptimeDMY_HM (g.date2 ++ ' ' :: t2) with
      | some d, some pd => some (d, pd)
      | _, _ => none
    | none =>
      match strptimeDMY g.date1, strptimeDMY g.date2 with
      | some d, some pd => some (d, pd)
      | _, _ => none
  match dates with
  | none => none
  | some (d, pd) =>
    match tbParseAmountL g.amt2 with
    | none => none
    | some a =>
      if full.isEmpty then none
      else
        some { date := d
               posting_date := some pd
               amount := a
               amount_original :=
                 match tbParseAmountL g.amt1 with
                 | some ao => if pyDecEqB ao a then none else some ao
                 | none => none
               currency := "RUB"
               description := String.mk full
               category := none
               card_number := some (String.mk g.card)
               bank := "T-Bank" }

/-- The scanning loop of `TBankParser._parse_lines`, with an explicit
fuel argument (one unit per processed position; the loop index `i` only
advances, so `lines.length` units always suffice — see
`tbankParseLinesGo_congr`). -/
def tbankParseLinesGo : Nat → List String → List Transaction
  | _, [] => []
  | 0, _ :: _ => []
  | f + 1, l :: rest =>
    match tbStartMatch (pyStrip l.data) with
    | some g =>
      let c := tbConsume none rest
      (match tbBuild g c.1 c.2.1 with
       | some t => t :: tbankParseLinesGo f c.2.2
       | none => tbankParseLinesGo f c.2.2)
    | none => tbankParseLinesGo f rest

/-- `TBankParser._parse_lines`. -/
def tbankParseLines (lines : List String) : List Transaction :=
  tbankParseLinesGo lines.length lines

/-- The fuel is irrelevant as long as it covers the number of lines. -/
theorem tbankParseLinesGo_congr :
    ∀ (f1 : Nat) (lines : List String) (f2 : Nat), lines.length ≤ f1 →
      lines.length ≤ f2 → tbankParseLinesGo f1 lines = tbankParseLinesGo f2 lines := by
  intro f1
  induction f1 with
  | zero =>
    intro lines f2 h1 _
    cases lines with
    | nil => cases f2 <;> rfl
    | cons l rest => exact absurd h1 (by simp)
  | succ f1' ih =>
    intro lines f2 h1 h2
    cases lines with
    | nil => cases f2 <;> rfl
    | cons l rest =>
      cases f2 with
      | zero => exact absurd h2 (by simp)
      | succ f2' =>
        simp only [tbankParseLinesGo]
        have hrem := tbConsume_rem_length none rest
        simp only [List.length_cons, Nat.succ_le_succ_iff] at h1 h2
        cases tbStartMatch (pyStrip l.data) with
        | some g =>
          simp only []
          cases tbBuild g (tbConsume none rest).1 (tbConsume none rest).2.1 with
          | some t =>
            simp only []
            rw [ih _ f2' (Nat.le_trans hrem h1) (Nat.le_trans hrem h2)]
          | none =>
            simp only []
            rw [ih _ f2' (Nat.le_trans hrem h1) (Nat.le_trans hrem h2)]
        | none =>
          simp only []
          exact ih rest f2' h1 h2

/-- One-step unfolding of `_parse_lines` at a transaction-start line. -/
theorem tbankParseLines_cons_start (l : String) (rest : List String) (g : TBStart)
    (hg : tbStartMatch (pyStrip l.data) = some g) :
    tbankParseLines (l :: rest) =
      (match tbBuild g (tbConsume none rest).1 (tbConsume none rest).2.1 with
       | some t => t :: tbankParseLines (tbConsume none rest).2.2
       | none => tbankParseLines (tbConsume none rest).2.2) := by
  show tbankParseLinesGo (rest.length + 1) (l :: rest) = _
  have hrem := tbConsume_rem_length none rest
  simp only [tbankParseLinesGo, hg]
  cases tbBuild g (tbConsume none rest).1 (tbConsume none rest).2.1 with
  | some t =>
    simp only []
    rw [tbankParseLinesGo_congr rest.length _ ((tbConsume none rest).2.2.length) hrem
      (Nat.le_refl _)]
    rfl
  | none =>
    simp only []
    rw [tbankParseLinesGo_congr rest.length _ ((tbConsume none rest).2.2.length) hrem
      (Nat.le_refl _)]
    rfl

/-- One-step unfolding of `_parse_lines` at a non-start line. -/
theorem tbankParseLines_cons_skip (l : String) (rest : List String)
    (hg : tbStartMatch (pyStrip l.data) = none) :
    tbankParseLines (l :: rest) = tbankParseLines rest := by
  show tbankParseLinesGo (rest.length + 1) (l :: rest) = _
  simp only [tbankParseLinesGo, hg]
  rfl

/-! ## AlfaBank line parser (`AlfaBankParser._parse_lines`, alfabank.py)

`TRANSACTION_PATTERN` is
`^(\d{2}\.\d{2}\.\d{4})\s+([A-Z0-9_]+)\s+(.+?)\s+(-?[\d\s]+,\d{2})\s*RUR\s*$`. -/

/-- `[A-Z0-9_]`. -/
def alfaCodeChar (c : Char) : Bool :=
  (65 ≤ c.toNat && c.toNat ≤ 90) || isDigitChar c || c = '_'

/-- `-?[\d\s]+,\d{2}\s*RUR\s*$` at a fixed position; returns the amount
capture.  When a `-` is present but the class run after it is empty, the
engine cannot recover (the `-` is in neither `\s` nor `[\d\s]`). -/
def alfaAmtBody (v : List Char) : Option (List Char) :=
  let negpre : List Char := if v.head? = some '-' then ['-'] else []
  let v1 := if v.head? = some '-' then v.tail else v
  let run := v1.takeWhile fun c => isDigitChar c || isPySpace c
  if run.isEmpty then none
  else
    match v1.drop run.length with
    | ',' :: e1 :: e2 :: rest2 =>
      if isDigitChar e1 = true ∧ isDigitChar e2 = true then
        match rest2.dropWhile isPySpace with
        | 'R' :: 'U' :: 'R' :: rest4 =>
          if rest4.all isPySpace then some (negpre ++ run ++ ',' :: [e1, e2])
          else none
        | _ => none
      else none
    | _ => none

/-- `\s+(-?[\d\s]+,\d{2})\s*RUR\s*$`: the leading whitespace run is tried
longest first; giving characters back to the class run keeps the comma
position fixed, so only the run-empty corner benefits. -/
def alfaAmtTailGo (u : List Char) : Nat → Option (List Char)
  | 0 => none
  | b + 1 =>
    match alfaAmtBody (u.drop (b + 1)) with
    | some r => some r
    | none => alfaAmtTailGo u b

def alfaAmtTail (u : List Char) : Option (List Char) :=
  alfaAmtTailGo u ((u.takeWhile isPySpace).length)

/-- Captures of the Alfa transaction pattern. -/
structure AlfaStart where
  date : List Char
  code : List Char
  desc : List Char
  amt : List Char
deriving DecidableEq, Repr

/-- `TRANSACTION_PATTERN.match(line)`. -/
def alfaStartMatch (cs : List Char) : Option AlfaStart :=
  match parseDate10 cs with
  | none => none
  | some (date, r1) =>
    match skipWs1 r1 with
    | none => none
    | some r2 =>
      let code := r2.takeWhile alfaCodeChar
      if code.isEmpty then none
      else
        match wsLazySplit alfaAmtTail (r2.drop code.length) with
        | none => none
        | some (desc, amt) => some ⟨date, code, desc, amt⟩

/-- `SKIP_PATTERNS` of alfabank.py. -/
def alfaSkipPatterns : List (List Char) :=
  ["Дата проводки".data, "Код операции".data, "Описание".data, "Сумма".data,
   "в валюте счета".data, "Страница".data, "АЛЬФА-БАНК".data, "alfabank.ru".data,
   "Уполномоченное лицо".data, "подпись сотрудника".data, "Ф.И.О. сотрудника".data,
   "к/с".data, "ул. Каланч".data, "Москва, 107078".data, "+7 495".data,
   "mail@".data, "Т.Т. Трофимова".data]

def alfaShouldSkip (cs : List Char) : Bool :=
  alfaSkipPatterns.any fun p => containsSub p cs

/-- `re.search(r"\d{2}\.\d{2}\.\d{4}", line)` as a boolean. -/
def searchDate10 : List Char → Bool
  | [] => false
  | c :: rest => (parseDate10 (c :: rest)).isSome || searchDate10 rest

def alfaContMarkers : List (List Char) :=
  ["Без НДС".data, "операции:".data, "MCC".data, "место совершения".data]

/-- `AlfaBankParser._is_continuation_line` on a stripped line.
`c.isdigit()` is modelled as the ASCII digit test. -/
def alfaIsContinuation (cs : List Char) : Bool :=
  if cs.isEmpty then false
  else if (parseDate10 cs).isSome then false
  else if alfaShouldSkip cs then false
  else if alfaContMarkers.any (fun p => containsSub p cs) then true
  else if cs.length < 50 && !searchDate10 cs then
    if !((cs.drop (cs.length - 10)).any isDigitChar) then true else false
  else false

/-- The inner continuation loop of the Alfa `_parse_lines`. -/
def alfaConsume : List String → List (List Char) × List String
  | [] => ([], [])
  | l :: rest =>
    let s := pyStrip l.data
    if alfaIsContinuation s then
      let c := alfaConsume rest
      (s :: c.1, c.2)
    else ([], l :: rest)

theorem alfaConsume_rem_length (lines : List String) :
    (alfaConsume lines).2.length ≤ lines.length := by
  induction lines with
  | nil => simp [alfaConsume]
  | cons l rest ih =>
    simp only [alfaConsume]
    by_cases hc : alfaIsContinuation (pyStrip l.data) = true
    · rw [if_pos hc]
      exact Nat.le_trans ih (Nat.le_succ _)
    · rw [if_neg hc]

/-- `CARD_PATTERN` (`карте?:\s*(\d+\+*\d*)`) at a fixed position; the
optional `е` is taken greedily (falling back cannot succeed since `е` is
not `:`); returns the two digit runs of the capture. -/
def alfaCardAt (cs : List Char) : Option (List Char × List Char) :=
  match cs with
  | 'к' :: 'а' :: 'р' :: 'т' :: rest =>
    let rest1 := if rest.head? = some 'е' then rest.tail else rest
    match rest1 with
    | ':' :: rest2 =>
      let rest3 := rest2.dropWhile isPySpace
      let d1 := rest3.takeWhile isDigitChar
      if d1.isEmpty then none
      else
        let rest4 := rest3.drop d1.length
        let pl := rest4.takeWhile fun c => c = '+'
        let d2 := (rest4.drop pl.length).takeWhile isDigitChar
        some (d1, d2)
    | _ => none
  | _ => none

/-- `CARD_PATTERN.search`: leftmost match. -/
def alfaCardSearch : List Char → Option (List Char × List Char)
  | [] => none
  | c :: rest =>
    match alfaCardAt (c :: rest) with
    | some r => some r
    | none => alfaCardSearch rest

/-- `AlfaBankParser._extract_card_number`: last digit run of the capture,
last four digits when long enough. -/
def alfaCardNumber (desc : List Char) : Option (List Char) :=
  match alfaCardSearch desc with
  | none => none
  | some (d1, d2) =>
    let last := if d2.isEmpty then d1 else d2
    some (if 4 ≤ last.length then last.drop (last.length - 4) else last)

/-- Build one Alfa transaction — the `try` body of its `_parse_lines`. -/
def alfaBuild (g : AlfaStart) (parts : List (List Char)) : Option Transaction :=
  let full := cleanDescription (joinSpace (g.desc :: parts))
  match strptimeDMY g.date with
  | none => none
  | some d =>
    match alfaParseAmountL g.amt with
    | none => none
    | some a =>
      if full.isEmpty then none
      else
        some { date := d
               posting_date := some d
               amount := a
               amount_original := none
               currency := "RUB"
               description := String.mk full
               category := none
               card_number := (alfaCardNumber full).map String.mk
               bank := "Alfa-Bank" }

/-- The scanning loop of `AlfaBankParser._parse_lines` (fuel as for
TBank). -/
def alfaParseLinesGo : Nat → List String → List Transaction
  | _, [] => []
  | 0, _ :: _ => []
  | f + 1, l :: rest =>
    let s := pyStrip l.data
    if s.isEmpty || alfaShouldSkip s then alfaParseLinesGo f rest
    else
      match alfaStartMatch s with
      | some g =>
        let c := alfaConsume rest
        (match alfaBuild g c.1 with
         | some t => t :: alfaParseLinesGo f c.2
         | none => alfaParseLinesGo f c.2)
      | none => alfaParseLinesGo f rest

/-- `AlfaBankParser._parse_lines`. -/
def alfaParseLines (lines : List String) : List Transaction :=
  alfaParseLinesGo lines.length lines

theorem alfaParseLinesGo_congr :
    ∀ (f1 : Nat) (lines : List String) (f2 : Nat), lines.length ≤ f1 →
      lines.length ≤ f2 → alfaParseLinesGo f1 lines = alfaParseLinesGo f2 lines := by
  intro f1
  induction f1 with
  | zero =>
    intro lines f2 h1 _
    cases lines with
    | nil => cases f2 <;> rfl
    | cons l rest => exact absurd h1 (by simp)
  | succ f1' ih =>
    intro lines f2 h1 h2
    cases lines with
    | nil => cases f2 <;> rfl
    | cons l rest =>
      cases f2 with
      | zero => exact absurd h2 (by simp)
      | succ f2' =>
        simp only [alfaParseLinesGo]
        have hrem := alfaConsume_rem_length rest
        simp only [List.length_cons, Nat.succ_le_succ_iff] at h1 h2
        by_cases hskip : ((pyStrip l.data).isEmpty || alfaShouldSkip (pyStrip l.data)) = true
        · rw [if_pos hskip, if_pos hskip]
          exact ih rest f2' h1 h2
        · rw [if_neg hskip, if_neg hskip]
          cases alfaStartMatch (pyStrip l.data) with
          | some g =>
            simp only []
            cases alfaBuild g (alfaConsume rest).1 with
            | some t =>
              simp only []
              rw [ih _ f2' (Nat.le_trans hrem h1) (Nat.le_trans hrem h2)]
            | none =>
              simp only []
              rw [ih _ f2' (Nat.le_trans hrem h1) (Nat.le_trans hrem h2)]
          | none =>
            simp only []
            exact ih rest f2' h1 h2

/-- One-step unfolding at an Alfa transaction-start line. -/
theorem alfaParseLines_cons_start (l : String) (rest : List String) (g : AlfaStart)
    (hns : ((pyStrip l.data).isEmpty || alfaShouldSkip (pyStrip l.data)) = false)
    (hg : alfaStartMatch (pyStrip l.data) = some g) :
    alfaParseLines (l :: rest) =
      (match alfaBuild g (alfaConsume rest).1 with
       | some t => t :: alfaParseLines (alfaConsume rest).2
       | none => alfaParseLines (alfaConsume rest).2) := by
  show alfaParseLinesGo (rest.length + 1) (l :: rest) = _
  have hrem := alfaConsume_rem_length rest
  simp only [alfaParseLinesGo, hns, hg, Bool.false_eq_true, if_false]
  cases alfaBuild g (alfaConsume rest).1 with
  | some t =>
    simp only []
    rw [alfaParseLinesGo_congr rest.length _ ((alfaConsume rest).2.length) hrem
      (Nat.le_refl _)]
    rfl
  | none =>
    simp only []
    rw [alfaParseLinesGo_congr rest.length _ ((alfaConsume rest).2.length) hrem
      (Nat.le_refl _)]
    rfl

/-! ## Ozon table parser (`OzonBankParser._parse_table_row`, ozon.py) -/

/-- Lower-casing for the keyword search (`str.lower()` on ASCII and
Cyrillic, the alphabets occurring in the statements). -/
def pyLower (c : Char) : Char :=
  if 65 ≤ c.toNat ∧ c.toNat ≤ 90 then Char.ofNat (c.toNat + 32)
  else if 0x410 ≤ c.toNat ∧ c.toNat ≤ 0x42F then Char.ofNat (c.toNat + 32)
  else if c.toNat = 0x401 then Char.ofNat 0x451
  else c

/-- `str(cell or "").strip()` on a nullable cell. -/
def ozonCellStr (cell : Option String) : List Char :=
  pyStrip (match cell with | none => [] | some s => s.data)

/-- `re.search(r"(\d{2}\.\d{2}\.\d{4})", cell)`: leftmost date capture. -/
def searchDateIn : List Char → Option (List Char)
  | [] => none
  | c :: rest =>
    match parseDate10 (c :: rest) with
    | some (d, _) => some d
    | none => searchDateIn rest

/-- `\d{2}:\d{2}:\d{2}` as a prefix. -/
def parseTime8 : List Char → Option (List Char)
  | h1 :: h2 :: ':' :: m1 :: m2 :: ':' :: s1 :: s2 :: _ =>
    if [h1, h2, m1, m2, s1, s2].all isDigitChar then
      some [h1, h2, ':', m1, m2, ':', s1, s2]
    else none
  | _ => none

/-- `re.search(r"(\d{2}:\d{2}:\d{2})", cell)`: leftmost time capture. -/
def searchTimeIn : List Char → Option (List Char)
  | [] => none
  | c :: rest =>
    match parseTime8 (c :: rest) with
    | some t => some t
    | none => searchTimeIn rest

def ozonKeywords : List (List Char) :=
  ["ozon".data, "товар".data, "заказ".data, "платеж".data, "перевод".data]

def ozonHasKeyword (cs : List Char) : Bool :=
  ozonKeywords.any fun p => containsSub p (cs.map pyLower)

/-- The per-cell scanning state of `_parse_table_row`. -/
structure OzonScan where
  dateStr : Option (List Char) := none
  timeStr : Option (List Char) := none
  descr : Option (List Char) := none
  amountStr : Option (List Char) := none
deriving Repr

/-- One iteration of the cell loop of `_parse_table_row`. -/
def ozonScanCell (st : OzonScan) (cell : Option String) : OzonScan :=
  let cs := ozonCellStr cell
  let st1 :=
    if (searchDateIn cs).isSome ∧ st.dateStr = none then
      { st with dateStr := searchDateIn cs,
                timeStr := if (searchTimeIn cs).isSome then searchTimeIn cs
                  else st.timeStr }
    else st
  let st2 :=
    if ozonHasKeyword cs then
      match st1.descr with
      | none => { st1 with descr := some cs }
      | some d => if d.length < cs.length then { st1 with descr := some cs } else st1
    else st1
  if (ozonAmtSearch cs).isSome then { st2 with amountStr := some cs } else st2

/-- The amount fallback loop of `_parse_table_row`: first cell whose text
parses as an amount. -/
def ozonFallbackAmount : List (Option String) → Option PyDec
  | [] => none
  | cell :: rest =>
    match ozonParseAmountL (ozonCellStr cell) with
    | some a => some a
    | none => ozonFallbackAmount rest

/-- `OzonBankParser._parse_table_row`. -/
def ozonParseTableRow (row : List (Option String)) : Option Transaction :=
  let st := row.foldl ozonScanCell {}
  match st.dateStr, st.descr with
  | some dateStr, some description =>
    if containsSub "Дата операции".data description ||
        containsSub "Назначение".data description then none
    else
      match (match st.timeStr with
             | some timeStr => strptimeDMY_HMS (dateStr ++ ' ' :: timeStr)
             | none => strptimeDMY dateStr) with
      | none => none
      | some date =>
        match (match (match st.amountStr with
                      | some a => ozonParseAmountL a
                      | none => none) with
               | some a => some a
               | none => ozonFallbackAmount row) with
        | none => none
        | some a =>
          let desc2 := cleanDescription description
          if desc2.isEmpty then none
          else
            some { date := date
                   posting_date := some date
                   amount := a
                   amount_original := none
                   currency := "RUB"
                   description := String.mk desc2
                   category := none
                   card_number := none
                   bank := "Ozon-Bank" }
  | _, _ => none

/-- `OzonBankParser._parse_table`: rows shorter than four cells are
skipped; a failing row is skipped (the `try/except` catches the
exceptions our row model returns as `none`). -/
def ozonParseTable : List (List (Option String)) → List Transaction
  | [] => []
  | row :: rows =>
    if row.isEmpty || row.length < 4 then ozonParseTable rows
    else
      match ozonParseTableRow row with
      | some t => t :: ozonParseTable rows
      | none => ozonParseTable rows

/-! ## Properties of the continuation loop and of transaction building -/

/-- The continuation loop consumes exactly the longest prefix of
consumable (time or continuation) lines, and stops at the first line
that is neither. -/
theorem tbConsume_spec (rest : List String) (ts : Option (List Char × List Char)) :
    ∃ k, ∃ hk : k ≤ rest.length,
      (tbConsume ts rest).2.2 = rest.drop k ∧
      (∀ m (hm : m < k),
        tbConsumable (pyStrip ((rest.get ⟨m, Nat.lt_of_lt_of_le hm hk⟩).data)) = true) ∧
      (∀ l' rs', rest.drop k = l' :: rs' → tbConsumable (pyStrip l'.data) = false) := by
  induction rest generalizing ts with
  | nil =>
    refine ⟨0, Nat.le_refl _, rfl, ?_, ?_⟩
    · intro m hm; exact absurd hm (Nat.not_lt_zero m)
    · intro l' rs' h; cases h
  | cons l rest' ih =>
    cases ht : tbTimeMatch (pyStrip l.data) with
    | some v =>
      obtain ⟨t1, t2, cont⟩ := v
      obtain ⟨k', hk', hrem, hcons, hstop⟩ :=
        ih (if ts.isSome then ts else some (t1, t2))
      refine ⟨k' + 1, Nat.succ_le_succ hk', ?_, ?_, ?_⟩
      · show (tbConsume ts (l :: rest')).2.2 = rest'.drop k'
        simp only [tbConsume, ht]
        exact hrem
      · intro m hm
        cases m with
        | zero => simp [tbConsumable, ht]
        | succ m' => exact hcons m' (Nat.lt_of_succ_lt_succ hm)
      · intro l' rs' h
        exact hstop l' rs' h
    | none =>
      by_cases hc : tbIsContinuation (pyStrip l.data) = true
      · obtain ⟨k', hk', hrem, hcons, hstop⟩ := ih ts
        refine ⟨k' + 1, Nat.succ_le_succ hk', ?_, ?_, ?_⟩
        · show (tbConsume ts (l :: rest')).2.2 = rest'.drop k'
          simp only [tbConsume, ht, hc, if_pos]
          exact hrem
        · intro m hm
          cases m with
          | zero => simp [tbConsumable, hc]
          | succ m' => exact hcons m' (Nat.lt_of_succ_lt_succ hm)
        · intro l' rs' h
          exact hstop l' rs' h
      · refine ⟨0, Nat.zero_le _, ?_, ?_, ?_⟩
        · show (tbConsume ts (l :: rest')).2.2 = l :: rest'
          simp only [tbConsume, ht]
          rw [if_neg hc]
        · intro m hm; exact absurd hm (Nat.not_lt_zero m)
        · intro l' rs' h
          injection h with h1 _
          subst h1
          simp [tbConsumable, ht]
          exact Bool.not_eq_true _ ▸ hc

/-- A line matching the transaction-start pattern is never consumed as a
time or continuation line: it starts with a date, which fails both the
time pattern and the continuation heuristic. -/
theorem tbStart_not_consumable (s : List Char) (g : TBStart)
    (hg : tbStartMatch s = some g) : tbConsumable s = false := by
  have hpd : (parseDate10 s).isSome = true := by
    unfold tbStartMatch at hg
    cases hp : parseDate10 s with
    | none => rw [hp] at hg; cases hg
    | some v => rfl
  cases hp : parseDate10 s with
  | none => rw [hp] at hpd; cases hpd
  | some v =>
    unfold parseDate10 at hp
    split at hp
    case _ a1 a2 b1 b2 c1 c2 c3 c4 rest =>
      have htime :
          tbTimeMatch (a1 :: a2 :: '.' :: b1 :: b2 :: '.' :: c1 :: c2 :: c3 :: c4 :: rest) =
            none := rfl
      simp only [tbConsumable, htime, Option.isSome_none, Bool.false_or]
      simp only [tbIsContinuation, List.isEmpty_cons, hpd]
      simp
    case _ => cases hp

/-- If the second amount capture fails to normalize, no transaction is
built. -/
theorem tbBuild_none_of_amount_none (g : TBStart) (ts : Option (List Char × List Char))
    (parts : List (List Char)) (h : tbParseAmountL g.amt2 = none) :
    tbBuild g ts parts = none := by
  unfold tbBuild
  simp only []
  split
  · rfl
  case _ d pd =>
    rw [h]

/-- Projections of a successfully built TBank transaction: the
description is the cleaned join of the start-line capture and the
consumed parts (nonempty), and the amount is the successfully normalized
second amount capture. -/
theorem tbBuild_some_spec {g : TBStart} {ts : Option (List Char × List Char)}
    {parts : List (List Char)} {t : Transaction}
    (h : tbBuild g ts parts = some t) :
    t.description = String.mk (cleanDescription (joinSpace (g.desc :: parts))) ∧
    (cleanDescription (joinSpace (g.desc :: parts))).isEmpty = false ∧
    tbParseAmountL g.amt2 = some t.amount := by
  cases hamt : tbParseAmountL g.amt2 with
  | none =>
    rw [tbBuild_none_of_amount_none g ts parts hamt] at h
    cases h
  | some a =>
    unfold tbBuild at h
    simp only [hamt] at h
    split at h
    · cases h
    · split_ifs at h with hemp
      injection h with h
      subst h
      exact ⟨rfl, by simpa using hemp, rfl⟩


/-- A non-consumable head line stops the continuation loop immediately:
nothing is consumed and the line itself is returned as the remainder. -/
theorem tbConsume_stop (ts : Option (List Char × List Char)) (l : String)
    (rest : List String) (h : tbConsumable (pyStrip l.data) = false) :
    tbConsume ts (l :: rest) = (ts, [], l :: rest) := by
  have ht : tbTimeMatch (pyStrip l.data) = none := by
    cases hx : tbTimeMatch (pyStrip l.data) with
    | none => rfl
    | some v =>
      exfalso
      simp [tbConsumable, hx] at h
  have hc : tbIsContinuation (pyStrip l.data) = false := by
    simp only [tbConsumable, ht, Option.isSome_none, Bool.false_or] at h
    exact h
  simp [tbConsume, ht, hc]

/-- C6: the TBank continuation loop consumes exactly the maximal prefix of
time/continuation lines after a transaction start and stops at the first
line that is neither (first conjunct); a line matching the
transaction-start pattern never passes the continuation heuristic (second
conjunct); hence a start line immediately followed by another start line
contributes at most one transaction built from its own captures alone —
its description is the cleaned text of its own capture, with no text from
the second transaction — and scanning resumes exactly at the second start
line (third conjunct). -/
theorem tbank_greedy_continuation_boundary :
    (∀ (rest : List String) (ts : Option (List Char × List Char)),
      ∃ k, ∃ hk : k ≤ rest.length,
        (tbConsume ts rest).2.2 = rest.drop k ∧
        (∀ m (hm : m < k),
          tbConsumable (pyStrip ((rest.get ⟨m, Nat.lt_of_lt_of_le hm hk⟩).data)) = true) ∧
        (∀ l' rs', rest.drop k = l' :: rs' → tbConsumable (pyStrip l'.data) = false)) ∧
    (∀ (s : List Char) (g : TBStart), tbStartMatch s = some g → tbConsumable s = false) ∧
    (∀ (a b : String) (rest : List String) (ga : TBStart),
      tbStartMatch (pyStrip a.data) = some ga →
      (tbStartMatch (pyStrip b.data)).isSome = true →
      tbankParseLines (a :: b :: rest) =
        (match tbBuild ga none [] with
         | some t => t :: tbankParseLines (b :: rest)
         | none => tbankParseLines (b :: rest)) ∧
      (∀ t, tbBuild ga none [] = some t →
        t.description = String.mk (cleanDescription ga.desc))) := by
  refine ⟨tbConsume_spec, tbStart_not_consumable, ?_⟩
  intro a b rest ga hga hb
  have hgb : ∃ gb, tbStartMatch (pyStrip b.data) = some gb := by
    cases hx : tbStartMatch (pyStrip b.data) with
    | none => rw [hx] at hb; cases hb
    | some gb => exact ⟨gb, rfl⟩
  obtain ⟨gb, hgb⟩ := hgb
  have hnc : tbConsumable (pyStrip b.data) = false := tbStart_not_consumable _ gb hgb
  have hcons : tbConsume none (b :: rest) = (none, [], b :: rest) :=
    tbConsume_stop none b rest hnc
  constructor
  · have heq := tbankParseLines_cons_start a (b :: rest) ga hga
    rw [hcons] at heq
    exact heq
  · intro t ht
    exact (tbBuild_some_spec ht).1

/-- Witness for C6 at the two adjacent start lines of the repo test data:
both lines match the start pattern, the parse equation splits them with
no consumption in between, and the first transaction keeps only its own
description text. -/
theorem tbank_greedy_continuation_boundary_witness :
    tbStartMatch (pyStrip ("28.01.2026 28.01.2026 -1 382.63 ₽ -1 382.63 ₽ Оплата в LENTA-0010 4015" : String).data) =
      some ⟨"28.01.2026".data, "28.01.2026".data, "-1 382.63".data, "-1 382.63".data,
        "Оплата в LENTA-0010".data, "4015".data⟩ ∧
    (tbStartMatch (pyStrip ("28.01.2026 28.01.2026 +5 000.00 ₽ +5 000.00 ₽ Внутрибанковский перевод 2934" : String).data)).isSome = true ∧
    tbankParseLines
        ["28.01.2026 28.01.2026 -1 382.63 ₽ -1 382.63 ₽ Оплата в LENTA-0010 4015",
         "28.01.2026 28.01.2026 +5 000.00 ₽ +5 000.00 ₽ Внутрибанковский перевод 2934"] =
      (match tbBuild ⟨"28.01.2026".data, "28.01.2026".data, "-1 382.63".data, "-1 382.63".data,
          "Оплата в LENTA-0010".data, "4015".data⟩ none [] with
       | some t => t :: tbankParseLines
           ["28.01.2026 28.01.2026 +5 000.00 ₽ +5 000.00 ₽ Внутрибанковский перевод 2934"]
       | none => tbankParseLines
           ["28.01.2026 28.01.2026 +5 000.00 ₽ +5 000.00 ₽ Внутрибанковский перевод 2934"]) ∧
    Transaction.description
        { date := ⟨2026, 1, 28, 0, 0, 0⟩, posting_date := some ⟨2026, 1, 28, 0, 0, 0⟩,
          amount := PyDec.fin (-138263) (-2), amount_original := none, currency := "RUB",
          description := "Оплата в LENTA-0010", category := none,
          card_number := some "4015", bank := "T-Bank" } =
      String.mk (cleanDescription ("Оплата в LENTA-0010" : String).data) := by
  refine ⟨by decide, by decide, ?_, ?_⟩
  · exact (tbank_greedy_continuation_boundary.2.2
      "28.01.2026 28.01.2026 -1 382.63 ₽ -1 382.63 ₽ Оплата в LENTA-0010 4015"
      "28.01.2026 28.01.2026 +5 000.00 ₽ +5 000.00 ₽ Внутрибанковский перевод 2934"
      [] ⟨"28.01.2026".data, "28.01.2026".data, "-1 382.63".data, "-1 382.63".data,
        "Оплата в LENTA-0010".data, "4015".data⟩ (by decide) (by decide)).1
  · exact (tbank_greedy_continuation_boundary.2.2
      "28.01.2026 28.01.2026 -1 382.63 ₽ -1 382.63 ₽ Оплата в LENTA-0010 4015"
      "28.01.2026 28.01.2026 +5 000.00 ₽ +5 000.00 ₽ Внутрибанковский перевод 2934"
      [] ⟨"28.01.2026".data, "28.01.2026".data, "-1 382.63".data, "-1 382.63".data,
        "Оплата в LENTA-0010".data, "4015".data⟩ (by decide) (by decide)).2 _ (by decide)


/-- If the Alfa amount capture fails to normalize or the date fails to
parse, no transaction is built. -/
theorem alfaBuild_none_of_failure (g : AlfaStart) (parts : List (List Char))
    (h : alfaParseAmountL g.amt = none ∨ strptimeDMY g.date = none) :
    alfaBuild g parts = none := by
  rcases h with h | h
  · cases hd : strptimeDMY g.date with
    | none => simp [alfaBuild, hd]
    | some d => simp [alfaBuild, hd, h]
  · simp [alfaBuild, h]

/-- If no time line was consumed and the first TBank date capture fails
to parse, no transaction is built. -/
theorem tbBuild_none_of_date_none (g : TBStart) (parts : List (List Char))
    (h : strptimeDMY g.date1 = none) : tbBuild g none parts = none := by
  cases h2 : strptimeDMY g.date2 with
  | none => simp [tbBuild, h, h2]
  | some pd => simp [tbBuild, h, h2]

/-- C7: a line that matches a transaction-start pattern but whose
captures fail to build a transaction (the `try` body returns nothing:
amount normalization or date parsing failed) is dropped, and scanning
continues on the remaining lines — for both the TBank and the Alfa line
parsers (first and third conjuncts, with the failure conditions spelled
out in the second and fourth); an empty document yields the empty
transaction list (fifth conjunct). -/
theorem line_failure_drop_and_continue :
    (∀ (l : String) (rest : List String) (g : TBStart),
      tbStartMatch (pyStrip l.data) = some g →
      tbBuild g (tbConsume none rest).1 (tbConsume none rest).2.1 = none →
      tbankParseLines (l :: rest) = tbankParseLines (tbConsume none rest).2.2) ∧
    (∀ (g : TBStart) (parts : List (List Char)),
      tbParseAmountL g.amt2 = none ∨ strptimeDMY g.date1 = none →
      tbBuild g none parts = none) ∧
    (∀ (l : String) (rest : List String) (g : AlfaStart),
      ((pyStrip l.data).isEmpty || alfaShouldSkip (pyStrip l.data)) = false →
      alfaStartMatch (pyStrip l.data) = some g →
      alfaBuild g (alfaConsume rest).1 = none →
      alfaParseLines (l :: rest) = alfaParseLines (alfaConsume rest).2) ∧
    (∀ (g : AlfaStart) (parts : List (List Char)),
      alfaParseAmountL g.amt = none ∨ strptimeDMY g.date = none →
      alfaBuild g parts = none) ∧
    (tbankParseLines [] = [] ∧ alfaParseLines [] = []) := by
  refine ⟨?_, ?_, ?_, alfaBuild_none_of_failure, rfl, rfl⟩
  · intro l rest g hg hb
    have heq := tbankParseLines_cons_start l rest g hg
    rw [hb] at heq
    exact heq
  · intro g parts h
    rcases h with h | h
    · exact tbBuild_none_of_amount_none g none parts h
    · exact tbBuild_none_of_date_none g parts h
  · intro l rest g hns hg hb
    have heq := alfaParseLines_cons_start l rest g hns hg
    rw [hb] at heq
    exact heq

/-- Witness for C7: two start lines carrying the impossible date
`31.02.2026` (February 31st) match the start patterns but fail to build,
so each is dropped and parsing continues; on the TBank side the follower
line is still scanned. -/
theorem line_failure_drop_and_continue_witness :
    tbStartMatch (pyStrip ("31.02.2026 31.02.2026 -1 382.63 ₽ -1 382.63 ₽ Оплата в LENTA-0010 4015" : String).data) =
      some ⟨"31.02.2026".data, "31.02.2026".data, "-1 382.63".data, "-1 382.63".data,
        "Оплата в LENTA-0010".data, "4015".data⟩ ∧
    tbBuild ⟨"31.02.2026".data, "31.02.2026".data, "-1 382.63".data, "-1 382.63".data,
        "Оплата в LENTA-0010".data, "4015".data⟩
      (tbConsume none ["28.01.2026 28.01.2026 +5 000.00 ₽ +5 000.00 ₽ Внутрибанковский перевод 2934"]).1
      (tbConsume none ["28.01.2026 28.01.2026 +5 000.00 ₽ +5 000.00 ₽ Внутрибанковский перевод 2934"]).2.1 = none ∧
    tbankParseLines
        ["31.02.2026 31.02.2026 -1 382.63 ₽ -1 382.63 ₽ Оплата в LENTA-0010 4015",
         "28.01.2026 28.01.2026 +5 000.00 ₽ +5 000.00 ₽ Внутрибанковский перевод 2934"] =
      tbankParseLines
        (tbConsume none ["28.01.2026 28.01.2026 +5 000.00 ₽ +5 000.00 ₽ Внутрибанковский перевод 2934"]).2.2 ∧
    alfaStartMatch (pyStrip ("31.02.2026 C123 Покупка 1 382,63 RUR" : String).data) =
      some ⟨"31.02.2026".data, "C123".data, "Покупка".data, "1 382,63".data⟩ ∧
    alfaBuild ⟨"31.02.2026".data, "C123".data, "Покупка".data, "1 382,63".data⟩
      (alfaConsume []).1 = none ∧
    alfaParseLines ["31.02.2026 C123 Покупка 1 382,63 RUR"] = alfaParseLines (alfaConsume []).2 := by
  refine ⟨by decide, by decide, ?_, by decide, by decide, ?_⟩
  · exact line_failure_drop_and_continue.1
      "31.02.2026 31.02.2026 -1 382.63 ₽ -1 382.63 ₽ Оплата в LENTA-0010 4015"
      ["28.01.2026 28.01.2026 +5 000.00 ₽ +5 000.00 ₽ Внутрибанковский перевод 2934"]
      ⟨"31.02.2026".data, "31.02.2026".data, "-1 382.63".data, "-1 382.63".data,
        "Оплата в LENTA-0010".data, "4015".data⟩ (by decide) (by decide)
  · exact (line_failure_drop_and_continue.2.2.1
      "31.02.2026 C123 Покупка 1 382,63 RUR" []
      ⟨"31.02.2026".data, "C123".data, "Покупка".data, "1 382,63".data⟩
      (by decide) (by decide) (by decide))


/-- Every transaction in the TBank scan output was produced by a
successful `tbBuild`. -/
theorem tbankParseLinesGo_mem :
    ∀ (f : Nat) (lines : List String) (t : Transaction),
      t ∈ tbankParseLinesGo f lines →
      ∃ g ts parts, tbBuild g ts parts = some t := by
  intro f
  induction f with
  | zero =>
    intro lines t h
    cases lines with
    | nil => simp [tbankParseLinesGo] at h
    | cons l rest => simp [tbankParseLinesGo] at h
  | succ f ih =>
    intro lines t h
    cases lines with
    | nil => simp [tbankParseLinesGo] at h
    | cons l rest =>
      simp only [tbankParseLinesGo] at h
      cases hg : tbStartMatch (pyStrip l.data) with
      | none =>
        simp only [hg] at h
        exact ih rest t h
      | some g =>
        simp only [hg] at h
        cases hb : tbBuild g (tbConsume none rest).1 (tbConsume none rest).2.1 with
        | none =>
          simp only [hb] at h
          exact ih _ t h
        | some u =>
          simp only [hb] at h
          rcases List.mem_cons.mp h with h | h
          · exact ⟨g, (tbConsume none rest).1, (tbConsume none rest).2.1,
              by rw [h]; exact hb⟩
          · exact ih _ t h

/-- Projections of a successfully built Alfa transaction: cleaned joined
description (nonempty) and successfully normalized amount capture. -/
theorem alfaBuild_some_spec {g : AlfaStart} {parts : List (List Char)}
    {t : Transaction} (h : alfaBuild g parts = some t) :
    t.description = String.mk (cleanDescription (joinSpace (g.desc :: parts))) ∧
    (cleanDescription (joinSpace (g.desc :: parts))).isEmpty = false ∧
    alfaParseAmountL g.amt = some t.amount := by
  cases hamt : alfaParseAmountL g.amt with
  | none =>
    rw [alfaBuild_none_of_failure g parts (Or.inl hamt)] at h
    cases h
  | some a =>
    unfold alfaBuild at h
    simp only [hamt] at h
    split at h
    · cases h
    · split_ifs at h with hemp
      injection h with h
      subst h
      exact ⟨rfl, by simpa using hemp, rfl⟩

/-- Every transaction in the Alfa scan output was produced by a
successful `alfaBuild`. -/
theorem alfaParseLinesGo_mem :
    ∀ (f : Nat) (lines : List String) (t : Transaction),
      t ∈ alfaParseLinesGo f lines →
      ∃ g parts, alfaBuild g parts = some t := by
  intro f
  induction f with
  | zero =>
    intro lines t h
    cases lines with
    | nil => simp [alfaParseLinesGo] at h
    | cons l rest => simp [alfaParseLinesGo] at h
  | succ f ih =>
    intro lines t h
    cases lines with
    | nil => simp [alfaParseLinesGo] at h
    | cons l rest =>
      simp only [alfaParseLinesGo] at h
      by_cases hskip : ((pyStrip l.data).isEmpty || alfaShouldSkip (pyStrip l.data)) = true
      · rw [if_pos hskip] at h
        exact ih rest t h
      · rw [if_neg hskip] at h
        cases hg : alfaStartMatch (pyStrip l.data) with
        | none =>
          simp only [hg] at h
          exact ih rest t h
        | some g =>
          simp only [hg] at h
          cases hb : alfaBuild g (alfaConsume rest).1 with
          | none =>
            simp only [hb] at h
            exact ih _ t h
          | some u =>
            simp only [hb] at h
            rcases List.mem_cons.mp h with h | h
            · exact ⟨g, (alfaConsume rest).1, by rw [h]; exact hb⟩
            · exact ih _ t h

/-- A successful amount fallback comes from some cell text that
normalized. -/
theorem ozonFallbackAmount_some :
    ∀ {row : List (Option String)} {a : PyDec},
      ozonFallbackAmount row = some a →
      ∃ src, ozonParseAmountL src = some a := by
  intro row
  induction row with
  | nil => intro a h; exact Option.noConfusion h
  | cons cell rest ih =>
    intro a h
    simp only [ozonFallbackAmount] at h
    cases hc : ozonParseAmountL (ozonCellStr cell) with
    | some b =>
      rw [hc] at h
      injection h with h
      exact ⟨ozonCellStr cell, by rw [hc, h]⟩
    | none =>
      rw [hc] at h
      exact ih h

/-- Projections of a successfully parsed Ozon row: nonempty cleaned
description and an amount that came from a successful normalization of
some cell text. -/
theorem ozonParseTableRow_some_spec {row : List (Option String)}
    {t : Transaction} (h : ozonParseTableRow row = some t) :
    t.description.data.isEmpty = false ∧
    ∃ src, ozonParseAmountL src = some t.amount := by
  unfold ozonParseTableRow at h
  simp only [] at h
  cases hds : (row.foldl ozonScanCell {}).dateStr with
  | none =>
    simp only [hds] at h
    exact Option.noConfusion h
  | some dateStr =>
    cases hdc : (row.foldl ozonScanCell {}).descr with
    | none =>
      simp only [hds, hdc] at h
      exact Option.noConfusion h
    | some description =>
      simp only [hds, hdc] at h
      by_cases hskip : (containsSub "Дата операции".data description ||
          containsSub "Назначение".data description) = true
      · rw [if_pos hskip] at h
        exact Option.noConfusion h
      · rw [if_neg hskip] at h
        cases hdt : (match (row.foldl ozonScanCell {}).timeStr with
            | some timeStr => strptimeDMY_HMS (dateStr ++ ' ' :: timeStr)
            | none => strptimeDMY dateStr) with
        | none =>
          simp only [hdt] at h
          exact Option.noConfusion h
        | some date =>
          simp only [hdt] at h
          cases hda : (match (match (row.foldl ozonScanCell {}).amountStr with
                | some a => ozonParseAmountL a
                | none => none) with
              | some a => some a
              | none => ozonFallbackAmount row) with
          | none =>
            simp only [hda] at h
            exact Option.noConfusion h
          | some a =>
            simp only [hda] at h
            by_cases hemp : (cleanDescription description).isEmpty = true
            · rw [if_pos hemp] at h
              exact Option.noConfusion h
            · rw [if_neg hemp] at h
              injection h with h
              subst h
              refine ⟨Bool.not_eq_true _ ▸ hemp, ?_⟩
              cases hin : (match (row.foldl ozonScanCell {}).amountStr with
                  | some s => ozonParseAmountL s
                  | none => none) with
              | some b =>
                rw [hin] at hda
                injection hda with hba
                cases has : (row.foldl ozonScanCell {}).amountStr with
                | none =>
                  rw [has] at hin
                  exact Option.noConfusion hin
                | some src =>
                  rw [has] at hin
                  have hin2 : ozonParseAmountL src = some b := hin
                  exact ⟨src, hba ▸ hin2⟩
              | none =>
                rw [hin] at hda
                exact ozonFallbackAmount_some hda

/-- Every transaction in the Ozon table output comes from a successfully
parsed row. -/
theorem ozonParseTable_mem :
    ∀ (rows : List (List (Option String))) (t : Transaction),
      t ∈ ozonParseTable rows →
      ∃ row, ozonParseTableRow row = some t := by
  intro rows
  induction rows with
  | nil => intro t h; simp [ozonParseTable] at h
  | cons row rest ih =>
    intro t h
    simp only [ozonParseTable] at h
    by_cases hsk : (row.isEmpty || decide (row.length < 4)) = true
    · rw [if_pos hsk] at h
      exact ih t h
    · rw [if_neg hsk] at h
      cases hr : ozonParseTableRow row with
      | none =>
        simp only [hr] at h
        exact ih t h
      | some u =>
        simp only [hr] at h
        rcases List.mem_cons.mp h with h | h
        · exact ⟨row, by rw [h]; exact hr⟩
        · exact ih t h


/-- C9: every transaction emitted by the TBank or Alfa line parsers or
the Ozon table parser has a description that is nonempty after cleaning
and an amount that is the result of a successful normalization of some
captured text (candidates whose amount fails to normalize or whose
cleaned description is empty are discarded, never emitted). -/
theorem emitted_transaction_invariants :
    (∀ (lines : List String) (t : Transaction), t ∈ tbankParseLines lines →
      t.description.data.isEmpty = false ∧ ∃ src, tbParseAmountL src = some t.amount) ∧
    (∀ (lines : List String) (t : Transaction), t ∈ alfaParseLines lines →
      t.description.data.isEmpty = false ∧ ∃ src, alfaParseAmountL src = some t.amount) ∧
    (∀ (rows : List (List (Option String))) (t : Transaction), t ∈ ozonParseTable rows →
      t.description.data.isEmpty = false ∧ ∃ src, ozonParseAmountL src = some t.amount) := by
  refine ⟨?_, ?_, ?_⟩
  · intro lines t h
    obtain ⟨g, ts, parts, hb⟩ := tbankParseLinesGo_mem lines.length lines t h
    obtain ⟨hdesc, hne, hamt⟩ := tbBuild_some_spec hb
    refine ⟨?_, g.amt2, hamt⟩
    rw [hdesc]
    exact hne
  · intro lines t h
    obtain ⟨g, parts, hb⟩ := alfaParseLinesGo_mem lines.length lines t h
    obtain ⟨hdesc, hne, hamt⟩ := alfaBuild_some_spec hb
    refine ⟨?_, g.amt, hamt⟩
    rw [hdesc]
    exact hne
  · intro rows t h
    obtain ⟨row, hr⟩ := ozonParseTable_mem rows t h
    exact ozonParseTableRow_some_spec hr

/-- Witness for C9: the transaction parsed from a concrete TBank
statement line has a nonempty description and a normalized amount. -/
theorem emitted_transaction_invariants_witness :
    ({ date := ⟨2026, 1, 28, 0, 0, 0⟩, posting_date := some ⟨2026, 1, 28, 0, 0, 0⟩,
       amount := PyDec.fin (-138263) (-2), amount_original := none, currency := "RUB",
       description := "Оплата в LENTA-0010", category := none,
       card_number := some "4015", bank := "T-Bank" } : Transaction) ∈
      tbankParseLines ["28.01.2026 28.01.2026 -1 382.63 ₽ -1 382.63 ₽ Оплата в LENTA-0010 4015"] ∧
    (({ date := ⟨2026, 1, 28, 0, 0, 0⟩, posting_date := some ⟨2026, 1, 28, 0, 0, 0⟩,
        amount := PyDec.fin (-138263) (-2), amount_original := none, currency := "RUB",
        description := "Оплата в LENTA-0010", category := none,
        card_number := some "4015", bank := "T-Bank" } : Transaction).description.data.isEmpty = false ∧
      ∃ src, tbParseAmountL src = some
        ({ date := ⟨2026, 1, 28, 0, 0, 0⟩, posting_date := some ⟨2026, 1, 28, 0, 0, 0⟩,
           amount := PyDec.fin (-138263) (-2), amount_original := none, currency := "RUB",
           description := "Оплата в LENTA-0010", category := none,
           card_number := some "4015", bank := "T-Bank" } : Transaction).amount) := by
  refine ⟨by decide, ?_⟩
  exact emitted_transaction_invariants.1
    ["28.01.2026 28.01.2026 -1 382.63 ₽ -1 382.63 ₽ Оплата в LENTA-0010 4015"]
    { date := ⟨2026, 1, 28, 0, 0, 0⟩, posting_date := some ⟨2026, 1, 28, 0, 0, 0⟩,
      amount := PyDec.fin (-138263) (-2), amount_original := none, currency := "RUB",
      description := "Оплата в LENTA-0010", category := none,
      card_number := some "4015", bank := "T-Bank" } (by decide)


/-! ## `Statement` and its derived totals (`models.py`) -/

/-- `Transaction.is_expense`: `self.amount < 0`.  On the decimal model a
finite value is negative iff its coefficient is; `NaN` comparisons
(which raise in Python) are excluded by finiteness hypotheses wherever
this is used. -/
def Transaction.is_expense (t : Transaction) : Bool :=
  match t.amount with
  | PyDec.fin n _ => decide (n < 0)
  | PyDec.inf b => b
  | PyDec.nan => false

/-- `Transaction.is_income`: `self.amount > 0`. -/
def Transaction.is_income (t : Transaction) : Bool :=
  match t.amount with
  | PyDec.fin n _ => decide (0 < n)
  | PyDec.inf b => !b
  | PyDec.nan => false

/-- Decimal digit count of a natural number (`len(str(n))`; `0` has one
digit), with structural fuel so that it reduces in the kernel. -/
def decDigitsGo : Nat → Nat → Nat
  | 0, _ => 0
  | fuel + 1, n => if n < 10 then 1 else decDigitsGo fuel (n / 10) + 1

def decDigits (n : Nat) : Nat := decDigitsGo (n + 1) n

/-- `ROUND_HALF_EVEN`: round `c / 10 ^ k` to the nearest integer, ties
to the even neighbour. -/
def roundHalfEven (c k : Nat) : Nat :=
  let d := 10 ^ k
  let q := c / d
  let r := c % d
  if d < 2 * r then q + 1
  else if 2 * r < d then q
  else if q % 2 = 1 then q + 1 else q

/-- `Decimal._fix` under the default context (`prec = 28`,
`Emin = -999999`, `Emax = 999999`, `rounding = ROUND_HALF_EVEN`,
`clamp = 0`; so `Etop = Emax - prec + 1 = 999972` and
`Etiny = Emin - prec + 1 = -1000026`): clamp a zero exponent into
`[Etiny, Emax]`; otherwise, if the coefficient carries more digits than
the precision allows at this exponent, round half-even to the retained
digits (a full carry `10 ^ prec` drops its trailing zero and bumps the
exponent).  An overflow — which the default traps surface as a raised
`decimal.Overflow` — is represented by the signed infinity it rounds
to. -/
def ctxFix : PyDec → PyDec
  | PyDec.fin n e =>
    if n = 0 then PyDec.fin 0 (min (max e (-1000026)) 999999)
    else
      let d : Int := (decDigits n.natAbs : Int)
      if 999972 < d + e - 28 then PyDec.inf (decide (n < 0))
      else
        let expMin := max (d + e - 28) (-1000026)
        if e < expMin then
          let c0 := roundHalfEven n.natAbs (expMin - e).toNat
          let c1 : Int := if c0 = 10 ^ 28 then (10 : Int) ^ 27 else (c0 : Int)
          let exp1 := if c0 = 10 ^ 28 then expMin + 1 else expMin
          if 999972 < exp1 then PyDec.inf (decide (n < 0))
          else PyDec.fin (if n < 0 then -c1 else c1) exp1
        else PyDec.fin n e
  | x => x

/-- The exact (unrounded) exponent-aligned sum of two finite decimals —
the intermediate value of `Decimal.__add__` before the context
rounding. -/
def pyDecAddExact (n1 e1 n2 e2 : Int) : PyDec :=
  if e1 ≤ e2 then PyDec.fin (n1 + n2 * pow10 (e2 - e1).toNat) e1
  else PyDec.fin (n1 * pow10 (e1 - e2).toNat + n2) e2

/-- `Decimal.__add__` (as used by `sum`): the exact exponent-aligned sum
followed by the default-context rounding `_fix`; infinities absorb,
opposite infinities and `NaN` give `NaN`.  (CPython bounds the operand
alignment with a sticky digit in `_normalize`; under `ROUND_HALF_EVEN`
the result is identical to rounding the exact sum as modelled here.) -/
def pyDecAdd : PyDec → PyDec → PyDec
  | PyDec.nan, _ => PyDec.nan
  | _, PyDec.nan => PyDec.nan
  | PyDec.inf b1, PyDec.inf b2 => if b1 = b2 then PyDec.inf b1 else PyDec.nan
  | PyDec.inf b, PyDec.fin _ _ => PyDec.inf b
  | PyDec.fin _ _, PyDec.inf b => PyDec.inf b
  | PyDec.fin n1 e1, PyDec.fin n2 e2 => ctxFix (pyDecAddExact n1 e1 n2 e2)

/-- `abs(Decimal)` (`__abs__`): drop the sign, then apply the context
rounding (`__abs__` goes through `__pos__`/`__neg__`, which call
`_fix`). -/
def pyDecAbs : PyDec → PyDec
  | PyDec.fin n e => ctxFix (PyDec.fin |n| e)
  | PyDec.inf _ => PyDec.inf false
  | PyDec.nan => PyDec.nan

/-- `Statement` model (`models.py`). -/
structure Statement where
  account_number : Option String := none
  contract_number : Option String := none
  period_start : Option DateTime := none
  period_end : Option DateTime := none
  transactions : List Transaction := []
  total_income : Option PyDec := none
  total_expense : Option PyDec := none
  bank : String := "T-Bank"
deriving Repr

/-- `Statement.calculated_income`:
`sum((t.amount for t in self.transactions if t.is_income()), Decimal("0"))`. -/
def Statement.calculated_income (s : Statement) : PyDec :=
  ((s.transactions.filter Transaction.is_income).map Transaction.amount).foldl
    pyDecAdd (PyDec.fin 0 0)

/-- `Statement.calculated_expense`:
`sum((abs(t.amount) for t in self.transactions if t.is_expense()), Decimal("0"))`. -/
def Statement.calculated_expense (s : Statement) : PyDec :=
  ((s.transactions.filter Transaction.is_expense).map
    (fun t => pyDecAbs t.amount)).foldl pyDecAdd (PyDec.fin 0 0)

/-- `|n| · 10 ^ (e - E)`: the absolute coefficient of a finite decimal
aligned at a common exponent lower bound `E`. -/
def alignedAbs (E : Int) : PyDec → Int
  | PyDec.fin n e => |n| * pow10 (e - E).toNat
  | _ => 0

/-- The value of a finite decimal, in exponential form. -/
theorem pyDecToRat_fin (n e : Int) :
    pyDecToRat (PyDec.fin n e) = (n : ℚ) * (10 : ℚ) ^ e := by
  simp only [pyDecToRat]
  by_cases h : 0 ≤ e
  · rw [if_pos h, Rat.mkRat_eq_div]
    simp only [pow10]
    push_cast
    rw [div_one, ← zpow_natCast (10 : ℚ) e.toNat, Int.toNat_of_nonneg h]
  · rw [if_neg h, Rat.mkRat_eq_div]
    push_cast
    have h2 : (0 : ℚ) < 10 ^ (-e).toNat := by positivity
    rw [div_eq_iff (ne_of_gt h2), mul_assoc, ← zpow_natCast (10 : ℚ) (-e).toNat,
      Int.toNat_of_nonneg (by omega : (0 : ℤ) ≤ -e),
      ← zpow_add₀ (by norm_num : (10 : ℚ) ≠ 0)]
    simp

/-- `pow10` is positive. -/
theorem pow10_pos (k : Nat) : 0 < pow10 k := by
  simp only [pow10]
  positivity

theorem one_le_pow10 (k : Nat) : 1 ≤ pow10 k := by
  have := pow10_pos k
  omega

theorem pow10_mul (a b : Nat) : pow10 (a + b) = pow10 a * pow10 b := by
  simp only [pow10, pow_add]
  push_cast
  ring

theorem alignedAbs_nonneg (E : Int) (x : PyDec) : 0 ≤ alignedAbs E x := by
  cases x with
  | fin n e =>
    simp only [alignedAbs]
    exact mul_nonneg (abs_nonneg n) (pow10_pos _).le
  | inf b => exact le_refl 0
  | nan => exact le_refl 0

/-- Sums of nonnegative integers are monotone along sublists. -/
theorem sum_le_sum_of_sublist {l1 l2 : List Int} (h : l1.Sublist l2)
    (h0 : ∀ x ∈ l2, 0 ≤ x) : l1.sum ≤ l2.sum := by
  induction h with
  | slnil => exact le_refl 0
  | cons a h ih =>
    simp only [List.sum_cons]
    have ha := h0 a (List.mem_cons_self a _)
    have hr := ih (fun x hx => h0 x (List.mem_cons_of_mem a hx))
    omega
  | cons₂ a h ih =>
    simp only [List.sum_cons]
    have hr := ih (fun x hx => h0 x (List.mem_cons_of_mem a hx))
    omega

theorem decDigitsGo_pos (fuel n : Nat) : 1 ≤ decDigitsGo (fuel + 1) n := by
  simp only [decDigitsGo]
  by_cases h : n < 10
  · rw [if_pos h]
  · rw [if_neg h]
    omega

theorem decDigits_pos (n : Nat) : 1 ≤ decDigits n := decDigitsGo_pos n n

theorem decDigitsGo_le :
    ∀ (fuel n k : Nat), n < fuel → 1 ≤ k → n < 10 ^ k →
      decDigitsGo fuel n ≤ k := by
  intro fuel
  induction fuel with
  | zero => intro n k h _ _; exact absurd h (Nat.not_lt_zero n)
  | succ fuel ih =>
    intro n k hf hk hn
    simp only [decDigitsGo]
    by_cases h : n < 10
    · rw [if_pos h]; exact hk
    · rw [if_neg h]
      have hk2 : 2 ≤ k := by
        rcases Nat.lt_or_ge k 2 with hlt | hge
        · have hk1 : k = 1 := by omega
          subst hk1
          simp at hn
          omega
        · exact hge
      have hpow : 10 * 10 ^ (k - 1) = 10 ^ k := by
        rw [← pow_succ']
        congr 1
        omega
      have h2 : n / 10 < 10 ^ (k - 1) :=
        Nat.div_lt_of_lt_mul (by rw [hpow]; exact hn)
      have h1 : n / 10 < fuel := by omega
      have := ih (n / 10) (k - 1) h1 (by omega) h2
      omega

theorem decDigits_le (n k : Nat) (hk : 1 ≤ k) (hn : n < 10 ^ k) :
    decDigits n ≤ k :=
  decDigitsGo_le (n + 1) n k (Nat.lt_succ_self n) hk hn

/-- The context rounding is the identity on values within 28 significant
digits and the safe exponent range. -/
theorem ctxFix_eq_self (n e : Int) (hn : |n| < pow10 28)
    (he1 : -999999 ≤ e) (he2 : e ≤ 999972) :
    ctxFix (PyDec.fin n e) = PyDec.fin n e := by
  simp only [ctxFix]
  by_cases h0 : n = 0
  · rw [if_pos h0, h0]
    congr 1
    omega
  · rw [if_neg h0]
    have hna : n.natAbs < 10 ^ 28 := by
      simp only [pow10] at hn
      rw [Int.abs_eq_natAbs] at hn
      exact_mod_cast hn
    have hd1 : 1 ≤ decDigits n.natAbs := decDigits_pos _
    have hd28 : decDigits n.natAbs ≤ 28 := decDigits_le _ 28 (by omega) hna
    have hdI1 : (1 : Int) ≤ (decDigits n.natAbs : Int) := by exact_mod_cast hd1
    have hdI2 : ((decDigits n.natAbs : Int)) ≤ 28 := by exact_mod_cast hd28
    rw [if_neg (by omega : ¬(999972 : Int) < (decDigits n.natAbs : Int) + e - 28)]
    rw [if_neg
      (by omega : ¬e < max ((decDigits n.natAbs : Int) + e - 28) (-1000026))]


/-- The exact aligned sum has the exact rational value. -/
theorem pyDecAddExact_value (n1 e1 n2 e2 : Int) :
    pyDecToRat (pyDecAddExact n1 e1 n2 e2) =
      pyDecToRat (PyDec.fin n1 e1) + pyDecToRat (PyDec.fin n2 e2) := by
  have hz : (10 : ℚ) ≠ 0 := by norm_num
  simp only [pyDecAddExact]
  by_cases h : e1 ≤ e2
  · rw [if_pos h]
    rw [pyDecToRat_fin, pyDecToRat_fin, pyDecToRat_fin]
    simp only [pow10]
    push_cast
    rw [add_mul, mul_assoc, ← zpow_natCast (10 : ℚ) (e2 - e1).toNat,
      Int.toNat_of_nonneg (by omega : (0 : ℤ) ≤ e2 - e1), ← zpow_add₀ hz]
    ring_nf
  · rw [if_neg h]
    rw [pyDecToRat_fin, pyDecToRat_fin, pyDecToRat_fin]
    simp only [pow10]
    push_cast
    rw [add_mul, mul_assoc, ← zpow_natCast (10 : ℚ) (e1 - e2).toNat,
      Int.toNat_of_nonneg (by omega : (0 : ℤ) ≤ e1 - e2), ← zpow_add₀ hz]
    ring_nf

/-- The exact aligned sum: shape (exponent is the minimum) and the
coefficient identity at any common alignment `E`. -/
theorem pyDecAddExact_shape (n1 e1 n2 e2 E : Int) (h1 : E ≤ e1) (h2 : E ≤ e2) :
    ∃ N, pyDecAddExact n1 e1 n2 e2 = PyDec.fin N (min e1 e2) ∧
      N * pow10 (min e1 e2 - E).toNat =
        n1 * pow10 (e1 - E).toNat + n2 * pow10 (e2 - E).toNat := by
  simp only [pyDecAddExact]
  by_cases h : e1 ≤ e2
  · rw [if_pos h, min_eq_left h]
    refine ⟨_, rfl, ?_⟩
    rw [add_mul, mul_assoc, ← pow10_mul]
    have ht : (e2 - e1).toNat + (e1 - E).toNat = (e2 - E).toNat := by omega
    rw [ht]
  · rw [if_neg h, min_eq_right (by omega : e2 ≤ e1)]
    refine ⟨_, rfl, ?_⟩
    rw [add_mul, mul_assoc, ← pow10_mul]
    have ht : (e1 - e2).toNat + (e2 - E).toNat = (e1 - E).toNat := by omega
    rw [ht]

/-- Dropping the sign of a finite decimal takes the rational value to
its absolute value. -/
theorem pyDecToRat_abs (n e : Int) :
    pyDecToRat (PyDec.fin |n| e) = |pyDecToRat (PyDec.fin n e)| := by
  rw [pyDecToRat_fin, pyDecToRat_fin, abs_mul,
    abs_of_pos (zpow_pos (by norm_num : (0 : ℚ) < 10) e)]
  push_cast
  rfl

/-- `abs` does not round within the exactness envelope. -/
theorem pyDecAbs_fin (n e : Int) (hn : |n| < pow10 28)
    (he1 : -999999 ≤ e) (he2 : e ≤ 999972) :
    pyDecAbs (PyDec.fin n e) = PyDec.fin |n| e := by
  simp only [pyDecAbs]
  exact ctxFix_eq_self |n| e (by rwa [abs_abs]) he1 he2

/-- Folding `Decimal` addition over finite decimals whose aligned
absolute coefficients sum below `10 ^ 28` never triggers the context
rounding: the fold stays finite, its aligned coefficient stays below the
bound, and its value is the exact rational sum. -/
theorem foldl_pyDecAdd_exact (E : Int) (hE1 : -999999 ≤ E) (hE2 : E ≤ 0) :
    ∀ (l : List PyDec) (nz ez : Int), E ≤ ez → ez ≤ 0 →
      (∀ x ∈ l, ∃ n e, x = PyDec.fin n e ∧ E ≤ e ∧ e ≤ 0) →
      |nz| * pow10 (ez - E).toNat + (l.map (alignedAbs E)).sum < pow10 28 →
      (∃ N M, l.foldl pyDecAdd (PyDec.fin nz ez) = PyDec.fin N M ∧ E ≤ M ∧ M ≤ 0 ∧
        |N| * pow10 (M - E).toNat ≤
          |nz| * pow10 (ez - E).toNat + (l.map (alignedAbs E)).sum) ∧
      pyDecToRat (l.foldl pyDecAdd (PyDec.fin nz ez)) =
        pyDecToRat (PyDec.fin nz ez) + (l.map pyDecToRat).sum := by
  intro l
  induction l with
  | nil =>
    intro nz ez h1 h2 _ _
    refine ⟨⟨nz, ez, rfl, h1, h2, by simp⟩, by simp⟩
  | cons x xs ih =>
    intro nz ez hez1 hez2 hl hb
    obtain ⟨n1, e1, hx, he11, he12⟩ := hl x (List.mem_cons_self x xs)
    subst hx
    simp only [List.foldl_cons, List.map_cons, List.sum_cons, alignedAbs] at hb ⊢
    obtain ⟨N, hNeq, hNal⟩ := pyDecAddExact_shape nz ez n1 e1 E hez1 he11
    have hppos := pow10_pos ((min ez e1) - E).toNat
    have halN : |N| * pow10 ((min ez e1) - E).toNat ≤
        |nz| * pow10 (ez - E).toNat + |n1| * pow10 (e1 - E).toNat := by
      have habs : |N| * pow10 ((min ez e1) - E).toNat =
          |N * pow10 ((min ez e1) - E).toNat| := by
        rw [abs_mul, abs_of_pos hppos]
      rw [habs, hNal]
      calc |nz * pow10 (ez - E).toNat + n1 * pow10 (e1 - E).toNat|
          ≤ |nz * pow10 (ez - E).toNat| + |n1 * pow10 (e1 - E).toNat| := abs_add _ _
        _ = |nz| * pow10 (ez - E).toNat + |n1| * pow10 (e1 - E).toNat := by
            rw [abs_mul, abs_mul, abs_of_pos (pow10_pos _), abs_of_pos (pow10_pos _)]
    have hxs_nonneg : 0 ≤ (xs.map (alignedAbs E)).sum := by
      apply List.sum_nonneg
      intro y hy
      obtain ⟨p, hp, hpe⟩ := List.mem_map.mp hy
      exact hpe ▸ alignedAbs_nonneg E p
    have hNb : |N| < pow10 28 := by
      have h1 : |N| ≤ |N| * pow10 ((min ez e1) - E).toNat :=
        le_mul_of_one_le_right (abs_nonneg N) (one_le_pow10 _)
      linarith
    have hM1 : E ≤ min ez e1 := le_min hez1 he11
    have hM2 : min ez e1 ≤ 0 := le_trans (min_le_left _ _) hez2
    have hfix : pyDecAdd (PyDec.fin nz ez) (PyDec.fin n1 e1) =
        PyDec.fin N (min ez e1) := by
      show ctxFix (pyDecAddExact nz ez n1 e1) = _
      rw [hNeq]
      exact ctxFix_eq_self N (min ez e1) hNb (by omega) (by omega)
    have hval2 : pyDecToRat (PyDec.fin N (min ez e1)) =
        pyDecToRat (PyDec.fin nz ez) + pyDecToRat (PyDec.fin n1 e1) := by
      rw [← hNeq]
      exact pyDecAddExact_value nz ez n1 e1
    rw [hfix]
    have hb' : |N| * pow10 ((min ez e1) - E).toNat +
        (xs.map (alignedAbs E)).sum < pow10 28 := by
      linarith
    obtain ⟨⟨N', M', hfold, hM'1, hM'2, hbound'⟩, hval'⟩ :=
      ih N (min ez e1) hM1 hM2 (fun y hy => hl y (List.mem_cons_of_mem _ hy)) hb'
    refine ⟨⟨N', M', hfold, hM'1, hM'2, by linarith⟩, ?_⟩
    rw [hval', hval2]
    ring


/-- C8 (amended): for a statement whose transaction amounts are finite
decimals with exponents in `[E, 0]` and whose aligned absolute
coefficients sum below the context precision `10 ^ 28` — so that the
default-context rounding of `Decimal` addition and `abs` never triggers
— `calculated_income` is exactly the sum of the (rational values of the)
positive amounts and `calculated_expense` exactly the sum of the
absolute values of the negative amounts; and both are functions of the
transaction list alone: two statements with the same transactions have
the same derived totals whatever their vendor-reported
`total_income`/`total_expense` fields say. -/
theorem statement_calculated_totals (s : Statement) (E : Int)
    (hE1 : -999999 ≤ E) (hE2 : E ≤ 0)
    (hfin : ∀ t ∈ s.transactions, ∃ n e, t.amount = PyDec.fin n e ∧ E ≤ e ∧ e ≤ 0)
    (hbound : (s.transactions.map (fun t => alignedAbs E t.amount)).sum < pow10 28) :
    pyDecToRat s.calculated_income =
      ((s.transactions.filter (fun t => decide (0 < pyDecToRat t.amount))).map
        (fun t => pyDecToRat t.amount)).sum ∧
    pyDecToRat s.calculated_expense =
      ((s.transactions.filter (fun t => decide (pyDecToRat t.amount < 0))).map
        (fun t => |pyDecToRat t.amount|)).sum ∧
    ∀ s' : Statement, s'.transactions = s.transactions →
      s'.calculated_income = s.calculated_income ∧
      s'.calculated_expense = s.calculated_expense := by
  have hten : ∀ e : Int, (0 : ℚ) < (10 : ℚ) ^ e :=
    fun e => zpow_pos (by norm_num) e
  have hall_nonneg : ∀ x ∈ s.transactions.map (fun t => alignedAbs E t.amount),
      (0 : Int) ≤ x := by
    intro x hx
    obtain ⟨u, hu, he⟩ := List.mem_map.mp hx
    exact he ▸ alignedAbs_nonneg E u.amount
  have hsingle : ∀ t ∈ s.transactions,
      alignedAbs E t.amount ≤
        (s.transactions.map (fun t => alignedAbs E t.amount)).sum := by
    intro t ht
    have hsub : [alignedAbs E t.amount].Sublist
        (s.transactions.map (fun t => alignedAbs E t.amount)) :=
      List.singleton_sublist.mpr (List.mem_map_of_mem _ ht)
    have := sum_le_sum_of_sublist hsub hall_nonneg
    simpa using this
  have hcoeff : ∀ t ∈ s.transactions, ∀ n e, t.amount = PyDec.fin n e →
      E ≤ e → |n| < pow10 28 := by
    intro t ht n e ha he
    have h1 : |n| ≤ |n| * pow10 (e - E).toNat :=
      le_mul_of_one_le_right (abs_nonneg n) (one_le_pow10 _)
    have h2 := hsingle t ht
    rw [ha] at h2
    rw [show alignedAbs E (PyDec.fin n e) = |n| * pow10 (e - E).toNat from rfl] at h2
    linarith
  refine ⟨?_, ?_, ?_⟩
  · have hfe : s.transactions.filter Transaction.is_income =
        s.transactions.filter (fun t => decide (0 < pyDecToRat t.amount)) := by
      apply List.filter_congr
      intro t ht
      obtain ⟨n, e, ha, _, _⟩ := hfin t ht
      simp only [Transaction.is_income, ha, pyDecToRat_fin]
      rw [decide_eq_decide]
      constructor
      · intro hn
        exact mul_pos (by exact_mod_cast hn) (hten e)
      · intro hq
        by_contra hn
        push_neg at hn
        have hn2 : (n : ℚ) ≤ 0 := by exact_mod_cast hn
        nlinarith [hten e]
    show pyDecToRat
        (((s.transactions.filter Transaction.is_income).map Transaction.amount).foldl
          pyDecAdd (PyDec.fin 0 0)) = _
    have hsubsum :
        (((s.transactions.filter Transaction.is_income).map Transaction.amount).map
          (alignedAbs E)).sum ≤
        (s.transactions.map (fun t => alignedAbs E t.amount)).sum := by
      rw [List.map_map]
      apply sum_le_sum_of_sublist
      · exact List.Sublist.map _ (List.filter_sublist _)
      · exact hall_nonneg
    obtain ⟨_, hval⟩ := foldl_pyDecAdd_exact E hE1 hE2
      ((s.transactions.filter Transaction.is_income).map Transaction.amount)
      0 0 hE2 (le_refl 0)
      (by
        intro x hx
        obtain ⟨t, ht, hxe⟩ := List.mem_map.mp hx
        obtain ⟨n, e, ha, he1, he2⟩ := hfin t (List.mem_of_mem_filter ht)
        exact ⟨n, e, by rw [← hxe]; exact ha, he1, he2⟩)
      (by
        simp only [abs_zero, zero_mul, zero_add]
        exact lt_of_le_of_lt hsubsum hbound)
    rw [hval, hfe, List.map_map]
    rw [pyDecToRat_fin]
    simp only [Function.comp_def]
    ring
  · have hfe : s.transactions.filter Transaction.is_expense =
        s.transactions.filter (fun t => decide (pyDecToRat t.amount < 0)) := by
      apply List.filter_congr
      intro t ht
      obtain ⟨n, e, ha, _, _⟩ := hfin t ht
      simp only [Transaction.is_expense, ha, pyDecToRat_fin]
      rw [decide_eq_decide]
      constructor
      · intro hn
        have hn2 : (n : ℚ) < 0 := by exact_mod_cast hn
        exact mul_neg_of_neg_of_pos hn2 (hten e)
      · intro hq
        by_contra hn
        push_neg at hn
        have hn2 : (0 : ℚ) ≤ (n : ℚ) := by exact_mod_cast hn
        nlinarith [hten e]
    have habs : ∀ t ∈ s.transactions.filter Transaction.is_expense,
        ∃ n e, t.amount = PyDec.fin n e ∧ E ≤ e ∧ e ≤ 0 ∧
          pyDecAbs t.amount = PyDec.fin |n| e := by
      intro t ht
      have ht2 := List.mem_of_mem_filter ht
      obtain ⟨n, e, ha, he1, he2⟩ := hfin t ht2
      refine ⟨n, e, ha, he1, he2, ?_⟩
      rw [ha]
      exact pyDecAbs_fin n e (hcoeff t ht2 n e ha he1) (by omega) (by omega)
    show pyDecToRat
        (((s.transactions.filter Transaction.is_expense).map
          (fun t => pyDecAbs t.amount)).foldl pyDecAdd (PyDec.fin 0 0)) = _
    have hsubsum :
        (((s.transactions.filter Transaction.is_expense).map
          (fun t => pyDecAbs t.amount)).map (alignedAbs E)).sum ≤
        (s.transactions.map (fun t => alignedAbs E t.amount)).sum := by
      rw [List.map_map]
      have hmapeq : (s.transactions.filter Transaction.is_expense).map
            (alignedAbs E ∘ fun t => pyDecAbs t.amount) =
          (s.transactions.filter Transaction.is_expense).map
            (fun t => alignedAbs E t.amount) := by
        apply List.map_congr_left
        intro t ht
        obtain ⟨n, e, ha, _, _, hab⟩ := habs t ht
        simp only [Function.comp_def]
        rw [hab, ha]
        simp only [alignedAbs, abs_abs]
      rw [hmapeq]
      apply sum_le_sum_of_sublist
      · exact List.Sublist.map _ (List.filter_sublist _)
      · exact hall_nonneg
    obtain ⟨_, hval⟩ := foldl_pyDecAdd_exact E hE1 hE2
      ((s.transactions.filter Transaction.is_expense).map
        (fun t => pyDecAbs t.amount))
      0 0 hE2 (le_refl 0)
      (by
        intro x hx
        obtain ⟨t, ht, hxe⟩ := List.mem_map.mp hx
        obtain ⟨n, e, _, he1, he2, hab⟩ := habs t ht
        exact ⟨|n|, e, by rw [← hxe]; exact hab, he1, he2⟩)
      (by
        simp only [abs_zero, zero_mul, zero_add]
        exact lt_of_le_of_lt hsubsum hbound)
    rw [hval, List.map_map]
    have hmap : (s.transactions.filter Transaction.is_expense).map
          (pyDecToRat ∘ fun t => pyDecAbs t.amount) =
        (s.transactions.filter Transaction.is_expense).map
          (fun t => |pyDecToRat t.amount|) := by
      apply List.map_congr_left
      intro t ht
      obtain ⟨n, e, ha, _, _, hab⟩ := habs t ht
      simp only [Function.comp_def]
      rw [hab, ha]
      exact pyDecToRat_abs n e
    rw [hmap, hfe, pyDecToRat_fin]
    ring
  · intro s' h
    constructor
    · show ((s'.transactions.filter Transaction.is_income).map Transaction.amount).foldl
          pyDecAdd (PyDec.fin 0 0) = _
      rw [h]
      rfl
    · show ((s'.transactions.filter Transaction.is_expense).map
          (fun t => pyDecAbs t.amount)).foldl pyDecAdd (PyDec.fin 0 0) = _
      rw [h]
      rfl


/-- A statement whose income amounts are `1E+28` and `1`: their exact
sum has 29 significant digits, one more than the default context
precision holds. -/
def bigStatement : Statement :=
  { transactions :=
      [{ date := ⟨2026, 1, 28, 0, 0, 0⟩, amount := PyDec.fin 1 28,
         description := "big" },
       { date := ⟨2026, 1, 28, 0, 0, 0⟩, amount := PyDec.fin 1 0,
         description := "one" }] }

/-- C8 counterexample: beyond 28 significant digits the context rounding
of `Decimal` addition makes `calculated_income` differ from the exact
sum of the positive amounts — summing `1E+28` and `1` yields
`1.000000000000000000000000000E+28` (value `10 ^ 28`), not
`10 ^ 28 + 1`. -/
theorem calculated_income_rounding_counterexample :
    Statement.calculated_income bigStatement = PyDec.fin (10 ^ 27) 1 ∧
    pyDecToRat (Statement.calculated_income bigStatement) ≠
      ((bigStatement.transactions.filter
          (fun t => decide (0 < pyDecToRat t.amount))).map
        (fun t => pyDecToRat t.amount)).sum := by
  have h1 : Statement.calculated_income bigStatement = PyDec.fin (10 ^ 27) 1 := by
    decide
  refine ⟨h1, ?_⟩
  have p1 : (0 : ℚ) < pyDecToRat (PyDec.fin 1 28) := by
    rw [pyDecToRat_fin]
    positivity
  have p2 : (0 : ℚ) < pyDecToRat (PyDec.fin 1 0) := by
    rw [pyDecToRat_fin]
    positivity
  have hfil : (bigStatement.transactions.filter
      (fun t => decide (0 < pyDecToRat t.amount))) = bigStatement.transactions := by
    simp only [bigStatement, List.filter, decide_eq_true p1, decide_eq_true p2]
  rw [h1, hfil]
  simp only [bigStatement, List.map_cons, List.map_nil, List.sum_cons, List.sum_nil]
  rw [pyDecToRat_fin, pyDecToRat_fin, pyDecToRat_fin]
  intro hcon
  rw [zpow_one, zpow_zero,
    show ((28 : ℤ)) = ((28 : ℕ) : ℤ) from rfl, zpow_natCast] at hcon
  push_cast at hcon
  norm_num at hcon


/-- A concrete statement for the C8 witness: one income, one expense and
one zero transaction, with deliberately wrong vendor-reported totals. -/
def demoStatement : Statement :=
  { transactions :=
      [{ date := ⟨2026, 1, 28, 0, 0, 0⟩, amount := PyDec.fin 500000 (-2),
         description := "перевод" },
       { date := ⟨2026, 1, 28, 0, 0, 0⟩, amount := PyDec.fin (-138263) (-2),
         description := "LENTA" },
       { date := ⟨2026, 1, 28, 0, 0, 0⟩, amount := PyDec.fin 0 0,
         description := "zero" }],
    total_income := some (PyDec.fin 777 0),
    total_expense := some (PyDec.fin 888 0) }

/-- Witness for C8 at `demoStatement` with alignment exponent `-2`: the
amounts are finite with exponents in `[-2, 0]`, their aligned absolute
coefficients sum far below `10 ^ 28`, and the derived totals equal the
rational sums, independently of the bogus vendor totals. -/
theorem statement_calculated_totals_witness :
    ((-999999 : Int) ≤ -2 ∧ (-2 : Int) ≤ 0) ∧
    (∀ t ∈ demoStatement.transactions,
      ∃ n e, t.amount = PyDec.fin n e ∧ (-2 : Int) ≤ e ∧ e ≤ 0) ∧
    (demoStatement.transactions.map (fun t => alignedAbs (-2) t.amount)).sum <
      pow10 28 ∧
    (pyDecToRat demoStatement.calculated_income =
      ((demoStatement.transactions.filter
          (fun t => decide (0 < pyDecToRat t.amount))).map
        (fun t => pyDecToRat t.amount)).sum ∧
    pyDecToRat demoStatement.calculated_expense =
      ((demoStatement.transactions.filter
          (fun t => decide (pyDecToRat t.amount < 0))).map
        (fun t => |pyDecToRat t.amount|)).sum ∧
    ∀ s' : Statement, s'.transactions = demoStatement.transactions →
      s'.calculated_income = demoStatement.calculated_income ∧
      s'.calculated_expense = demoStatement.calculated_expense) := by
  have hf : ∀ t ∈ demoStatement.transactions,
      ∃ n e, t.amount = PyDec.fin n e ∧ (-2 : Int) ≤ e ∧ e ≤ 0 := by
    intro t ht
    simp only [demoStatement, List.mem_cons, List.not_mem_nil, or_false] at ht
    rcases ht with rfl | rfl | rfl
    · exact ⟨500000, -2, rfl, by decide, by decide⟩
    · exact ⟨-138263, -2, rfl, by decide, by decide⟩
    · exact ⟨0, 0, rfl, by decide, by decide⟩
  exact ⟨⟨by decide, by decide⟩, hf, by decide,
    statement_calculated_totals demoStatement (-2) (by decide) (by decide) hf
      (by decide)⟩

end ExpenseTracker




